import Mathlib

/-!
Verification development for dotdrop's `dotdrop/updater.py` (class `Updater`).

The Python source is shallowly embedded as pure Lean functions:

* The filesystem is modelled by `FSNode`: a regular file with an abstract
  content identifier (`Nat`), or a directory with a list of named children
  (the directory listing).  Paths are lists of segments (`os.path.join a b`
  is list append).
* The external collaborators of the core (template engine, transformation
  subsystem, logger/prompt, `utils`, configuration store) are modelled as
  oracle functions carried by the structure `U` (mirroring the fields of the
  Python `Updater` object, `self`).  Oracles are deterministic functions,
  matching the "no external changes" reading of the spec.
* Side effects (file copies, recursive copies, removals, temp-file writes,
  log lines, interactive prompts) are collected in an explicit trace of
  `Effect` values; a state-changing action appears in the trace exactly when
  the modelled filesystem state changes.  `shutil.copyfile` semantics: the
  copy succeeds iff the source is a regular file and the destination is not
  a directory and the transient-I/O-error oracle does not fire; a failing
  copy changes nothing and, inside `_handle_file`'s `try`, is caught and
  logged.  Debug-only log lines (`self.log.dbg`) are not modelled.
* Code paths on which CPython would raise an uncaught exception (e.g.
  `filecmp` on a missing file, `shutil.copyfile` outside `_handle_file`'s
  `try` failing) are modelled as non-mutating failure returns; the claims
  settled here do not depend on those corners.
-/

set_option maxHeartbeats 1000000

namespace Dotdrop

/-- Abstract identifier for the byte content of a regular file. -/
abbrev Content := Nat

/-- A filesystem node: a regular file with abstract content, or a directory
with a list of named children (its listing). -/
inductive FSNode where
  | file (content : Content)
  | dir (children : List (String × FSNode))

/-- One directory entry: a name together with the node stored under it. -/
abbrev Entry := String × FSNode

/-- A filesystem path as a list of segments; `os.path.join p s = p ++ [s]`. -/
abbrev FPath := List String

/-- Render a path for log/prompt messages (the Python code formats paths
into message strings). -/
def pstr (p : FPath) : String := String.intercalate "/" p

/-- Look a name up in a directory listing (the filesystem read primitive
behind `os.path.isdir`, `os.path.exists`, `open`, ...). -/
def look : List Entry → String → Option FSNode
  | [], _ => none
  | (k, v) :: t, n => if k = n then some v else look t n

/-- Store a node under a name in a listing: replace the existing entry or
append a new one (the write primitive behind `shutil.copyfile`/`copytree`). -/
def setK : List Entry → String → FSNode → List Entry
  | [], n, v => [(n, v)]
  | (k, w) :: t, n, v => if k = n then (k, v) :: t else (k, w) :: setK t n v

/-- Remove a name from a listing (the primitive behind `utils.remove`). -/
def removeK (xs : List Entry) (n : String) : List Entry :=
  xs.filter (fun e => e.1 != n)

/-- The names appearing in a directory listing (`os.listdir`). -/
def namesOf (xs : List Entry) : List String := (xs.map Prod.fst).dedup

/-- Whether an optional node is a directory (`os.path.isdir`). -/
def isDirO : Option FSNode → Bool
  | some (FSNode.dir _) => true
  | _ => false

/-- Content of an optional node when it is a regular file. -/
def contentO : Option FSNode → Option Content
  | some (FSNode.file c) => some c
  | _ => none

/-- Names present only on the deployed side (`dircmp.left_only`). -/
def leftOnly (l r : List Entry) : List String :=
  (namesOf l).filter (fun n => (look r n).isNone)

/-- Names present only on the managed side (`dircmp.right_only`). -/
def rightOnly (l r : List Entry) : List String :=
  (namesOf r).filter (fun n => (look l n).isNone)

/-- Names present on both sides (`dircmp.common`). -/
def commonNames (l r : List Entry) : List String :=
  (namesOf l).filter (fun n => (look r n).isSome)

/-- Common names that are regular files on both sides with differing content
(`dircmp.diff_files`; `filecmp` falls back to content comparison when the
shallow stat signatures differ). -/
def diffFileNames (l r : List Entry) : List String :=
  (commonNames l r).filter (fun n =>
    match look l n, look r n with
    | some (FSNode.file a), some (FSNode.file b) => a != b
    | _, _ => false)

/-- Common names whose type differs between the two sides
(`dircmp.common_funny`; `dircmp.funny_files` is empty in a model without
`os.stat` errors). -/
def funnyNames (l r : List Entry) : List String :=
  (commonNames l r).filter (fun n => isDirO (look l n) != isDirO (look r n))

/-- Common names that are directories on both sides (`dircmp.common_dirs`,
the names recursed into through `dircmp.subdirs`). -/
def commonDirNames (l r : List Entry) : List String :=
  (commonNames l r).filter (fun n => isDirO (look l n) && isDirO (look r n))

/-- One observable action of the updater: actual filesystem mutations
(`copyF` = `shutil.copyfile`, `copyT` = `shutil.copytree`,
`removeF` = `utils.remove`, `writeTmpF` = writing a temporary file),
log lines, and interactive prompts. -/
inductive Effect where
  | copyF (src dst : FPath)
  | copyT (src dst : FPath)
  | removeF (p : FPath)
  | writeTmpF (p : FPath) (c : Content)
  | dryE (msg : String)
  | warnE (msg : String)
  | errE (msg : String)
  | askE (msg : String)
deriving DecidableEq, Repr

/-- Whether an effect is a mutating filesystem action in the sense of the
spec's "copy, remove" wording: a performed file copy, recursive copy, or
removal. -/
def isMut : Effect → Bool
  | Effect.copyF _ _ => true
  | Effect.copyT _ _ => true
  | Effect.removeF _ => true
  | _ => false

/-- A managed-dotfile record as produced by the configuration store. -/
structure Dotfile where
  key : String
  dst : FPath
  src : FPath
  transW : Option String
  upignore : List String
deriving DecidableEq, Repr

/-- The modelled `Updater` object: its constructor fields plus oracle
functions standing for the external collaborators.  `curIgn` stands for
`utils.must_ignore(paths, self.ignores)` with the per-update merged ignore
set `self.ignores` already bound; `matchIgn` is the same matcher still
indexed by a pattern set. -/
structure U where
  dry : Bool
  safe : Bool
  showpatch : Bool
  ignore : List String
  dotfiles : List Dotfile
  dotpathRoot : FPath
  isTemplate : Content → Bool
  render : Content → Content
  previewTmp : FPath
  ask : String → Bool
  copyError : FPath → FPath → Bool
  matchIgn : List String → List FPath → Bool
  curIgn : List FPath → Bool
  transTmp : FPath
  transOut : String → Option Content
  transFailedLeft : Bool
  lexists : FPath → Bool
  normalizeP : FPath → FPath
  expandP : FPath → FPath

/-- Shallow file comparison `filecmp.cmp(left, right, shallow=True)`:
equal only for two regular files with equal content (non-regular operands
compare unequal). -/
def cmpSh : Option FSNode → Option FSNode → Bool
  | some (FSNode.file a), some (FSNode.file b) => a == b
  | _, _ => false

/-- Template detection `Templategen.is_template(path)` at the node stored
under the path (false for non-files). -/
def isTemplateO (u : U) : Option FSNode → Bool
  | some (FSNode.file c) => u.isTemplate c
  | _ => false

/-- Warning text of `_is_template`. -/
def tmplWarn (right : FPath) : String := pstr right ++ " uses template, update manually"

/-- Prompt text of `_overwrite` (called as `_overwrite(left, right)`). -/
def owMsg (left right : FPath) : String :=
  "Overwrite \"" ++ pstr right ++ "\" with \"" ++ pstr left ++ "\"?"

/-- Prompt text of `_confirm_rm_r`. -/
def rmMsg (p : FPath) : String := "Recursively remove \"" ++ pstr p ++ "\"?"

/-- Warning text of the `except IOError` branch of `_handle_file` (the
exception detail is not modelled). -/
def copyFailMsg (left : FPath) : String := pstr left ++ " update failed, do manually"

/-- Effects of `_show_patch(tpath, fpath)`: render the template, write the
result to a temporary file (`utils.write_to_tmpfile`), and suggest a
`diff`+`patch` command line. -/
def patchFx (u : U) (rn : Option FSNode) (left right : FPath) : List Effect :=
  match rn with
  | some (FSNode.file b) =>
    [Effect.writeTmpF u.previewTmp (u.render b),
     Effect.warnE ("try patching with: \"diff -u " ++ pstr u.previewTmp ++ " " ++
       pstr left ++ " | patch " ++ pstr right ++ "\"")]
  | _ => []

/-- The tail of `_handle_file` after the template check: shallow compare,
`_overwrite` confirmation, dry-run short circuit, and the guarded
`shutil.copyfile` with its `except IOError` handler.  Returns the new node
stored under `right`, the effect trace, and the boolean result. -/
def fileCopyStage (u : U) (ln rn : Option FSNode) (left right : FPath) (compare : Bool) :
    Option FSNode × List Effect × Bool :=
  if compare && cmpSh ln rn then (rn, [], true)
  else
    let asks : List Effect := if u.safe then [Effect.askE (owMsg left right)] else []
    if u.safe && !(u.ask (owMsg left right)) then (rn, asks, false)
    else if u.dry then
      (rn, asks ++ [Effect.dryE ("would cp " ++ pstr left ++ " " ++ pstr right)], true)
    else
      match ln with
      | some (FSNode.file a) =>
        if isDirO rn || u.copyError left right then
          (rn, asks ++ [Effect.warnE (copyFailMsg left)], false)
        else
          (some (FSNode.file a), asks ++ [Effect.copyF left right], true)
      | _ => (rn, asks ++ [Effect.warnE (copyFailMsg left)], false)

/-- Model of `_handle_file(left, right, compare)`.  `ln`/`rn` are the nodes
currently stored under the deployed path `left` and the managed path
`right`. -/
def handleFileN (u : U) (ln rn : Option FSNode) (left right : FPath) (compare : Bool) :
    Option FSNode × List Effect × Bool :=
  if u.curIgn [left, right] then (rn, [], true)
  else if isTemplateO u rn then
    (rn, Effect.warnE (tmplWarn right) ::
      (if u.showpatch then patchFx u rn left right else []), false)
  else fileCopyStage u ln rn left right compare

/-- Loop "create dirs that don't exist in dotdrop" of `_merge_dirs`
(iterating over `diff.left_only`, copying directories with
`shutil.copytree`). -/
def addDirsLoop (u : U) (l : List Entry) (names : List String) (r : List Entry)
    (lp rp : FPath) : List Entry × List Effect :=
  match names with
  | [] => (r, [])
  | n :: rest =>
    match look l n with
    | some (FSNode.dir sub) =>
      if u.curIgn [lp ++ [n], rp ++ [n]] then addDirsLoop u l rest r lp rp
      else if u.dry then
        let s := addDirsLoop u l rest r lp rp
        (s.1, Effect.dryE ("would cp -r " ++ pstr (lp ++ [n]) ++ " " ++ pstr (rp ++ [n])) :: s.2)
      else
        let s := addDirsLoop u l rest (setK r n (FSNode.dir sub)) lp rp
        (s.1, Effect.copyT (lp ++ [n]) (rp ++ [n]) :: s.2)
    | _ => addDirsLoop u l rest r lp rp

/-- Loop "remove dirs that don't exist in deployed version" of `_merge_dirs`
(iterating over `diff.right_only`, with `_confirm_rm_r` in safe mode). -/
def rmDirsLoop (u : U) (names : List String) (r : List Entry) (rp : FPath) :
    List Entry × List Effect :=
  match names with
  | [] => (r, [])
  | n :: rest =>
    match look r n with
    | some (FSNode.dir _) =>
      if u.curIgn [rp ++ [n]] then rmDirsLoop u rest r rp
      else if u.dry then
        let s := rmDirsLoop u rest r rp
        (s.1, Effect.dryE ("would rm -r " ++ pstr (rp ++ [n])) :: s.2)
      else
        let asks : List Effect := if u.safe then [Effect.askE (rmMsg (rp ++ [n]))] else []
        if u.safe && !(u.ask (rmMsg (rp ++ [n]))) then
          let s := rmDirsLoop u rest r rp
          (s.1, asks ++ s.2)
        else
          let s := rmDirsLoop u rest (removeK r n) rp
          (s.1, asks ++ Effect.removeF (rp ++ [n]) :: s.2)
    | _ => rmDirsLoop u rest r rp

/-- Loop "sync files that exist in both but are different" of `_merge_dirs`
(iterating over `diff.diff_files + funny_files + common_funny`, delegating
to `_handle_file` with `compare=False`). -/
def syncFilesLoop (u : U) (l : List Entry) (names : List String) (r : List Entry)
    (lp rp : FPath) : List Entry × List Effect :=
  match names with
  | [] => (r, [])
  | n :: rest =>
    if u.curIgn [lp ++ [n], rp ++ [n]] then syncFilesLoop u l rest r lp rp
    else if u.dry then
      let s := syncFilesLoop u l rest r lp rp
      (s.1, Effect.dryE ("would cp " ++ pstr (lp ++ [n]) ++ " " ++ pstr (rp ++ [n])) :: s.2)
    else
      let h := handleFileN u (look l n) (look r n) (lp ++ [n]) (rp ++ [n]) false
      let r' := match h.1 with
        | some v => setK r n v
        | none => r
      let s := syncFilesLoop u l rest r' lp rp
      (s.1, h.2.1 ++ s.2)

/-- Loop "copy files that don't exist in dotdrop" of `_merge_dirs`
(iterating over `diff.left_only`, plain `shutil.copyfile`). -/
def addFilesLoop (u : U) (l : List Entry) (names : List String) (r : List Entry)
    (lp rp : FPath) : List Entry × List Effect :=
  match names with
  | [] => (r, [])
  | n :: rest =>
    match look l n with
    | some (FSNode.file c) =>
      if u.curIgn [lp ++ [n], rp ++ [n]] then addFilesLoop u l rest r lp rp
      else if u.dry then
        let s := addFilesLoop u l rest r lp rp
        (s.1, Effect.dryE ("would cp " ++ pstr (lp ++ [n]) ++ " " ++ pstr (rp ++ [n])) :: s.2)
      else
        let s := addFilesLoop u l rest (setK r n (FSNode.file c)) lp rp
        (s.1, Effect.copyF (lp ++ [n]) (rp ++ [n]) :: s.2)
    | _ => addFilesLoop u l rest r lp rp

/-- Loop "remove files that don't exist in deployed version" of
`_merge_dirs` (iterating over `diff.right_only`; entries already removed by
the directory loop fail the `os.path.exists` check and are skipped). -/
def rmFilesLoop (u : U) (names : List String) (r : List Entry) (rp : FPath) :
    List Entry × List Effect :=
  match names with
  | [] => (r, [])
  | n :: rest =>
    match look r n with
    | some (FSNode.file _) =>
      if u.curIgn [rp ++ [n]] then rmFilesLoop u rest r rp
      else if u.dry then
        let s := rmFilesLoop u rest r rp
        (s.1, Effect.dryE ("would rm " ++ pstr (rp ++ [n])) :: s.2)
      else
        let s := rmFilesLoop u rest (removeK r n) rp
        (s.1, Effect.removeF (rp ++ [n]) :: s.2)
    | _ => rmFilesLoop u rest r rp

/-- Size bound justifying recursion into a node found by `look`. -/
theorem sizeOf_look {l : List Entry} {n : String} {v : FSNode}
    (h : look l n = some v) : sizeOf v < sizeOf l := by
  induction l with
  | nil => simp [look] at h
  | cons e t ih =>
    obtain ⟨k, w⟩ := e
    by_cases hk : k = n
    · simp [look, hk] at h
      subst h
      simp
      try omega
    · simp [look, hk] at h
      have := ih h
      simp
      omega

/-- Size bound for the children of a directory node found by `look`. -/
theorem sizeOf_look_dir {l : List Entry} {n : String} {lc : List Entry}
    (h : look l n = some (FSNode.dir lc)) : sizeOf lc < sizeOf l := by
  have h1 := sizeOf_look h
  have h2 : sizeOf lc < sizeOf (FSNode.dir lc) := by
    simp
    try omega
  omega

mutual

/-- Model of `_merge_dirs(diff)` for the directory pair with listings
`l` (deployed) / `r` (managed) at paths `lp` / `rp`: the entry ignore
check, the five name loops, and the recursion into common subdirectories.
The name lists are those `filecmp.dircmp` computes lazily from the listings
taken at entry (the loops never touch the entries a later phase reads).
Returns the new managed listing and the effect trace; the Python function
always returns `True`. -/
def mergeDirs (u : U) (l r : List Entry) (lp rp : FPath) : List Entry × List Effect :=
  if u.curIgn [lp, rp] then (r, [])
  else
    let s1 := addDirsLoop u l (leftOnly l r) r lp rp
    let s2 := rmDirsLoop u (rightOnly l r) s1.1 rp
    let s3 := syncFilesLoop u l (diffFileNames l r ++ funnyNames l r) s2.1 lp rp
    let s4 := addFilesLoop u l (leftOnly l r) s3.1 lp rp
    let s5 := rmFilesLoop u (rightOnly l r) s4.1 rp
    let s6 := mergeSubs u l (commonDirNames l r) s5.1 lp rp
    (s6.1, s1.2 ++ s2.2 ++ s3.2 ++ s4.2 ++ s5.2 ++ s6.2)
termination_by (sizeOf l, (commonDirNames l r).length + 1)

/-- Recursion of `_merge_dirs` into `diff.subdirs` (one recursive call per
common subdirectory name, threading the managed listing). -/
def mergeSubs (u : U) (l : List Entry) (cds : List String) (r : List Entry)
    (lp rp : FPath) : List Entry × List Effect :=
  match cds with
  | [] => (r, [])
  | n :: rest =>
    match hl : look l n with
    | some (FSNode.dir lc) =>
      match look r n with
      | some (FSNode.dir rc) =>
        have hsz : sizeOf lc < sizeOf l := sizeOf_look_dir hl
        let s := mergeDirs u lc rc (lp ++ [n]) (rp ++ [n])
        let s' := mergeSubs u l rest (setK r n (FSNode.dir s.1)) lp rp
        (s'.1, s.2 ++ s'.2)
      | _ => mergeSubs u l rest r lp rp
    | _ => mergeSubs u l rest r lp rp
termination_by (sizeOf l, cds.length)

end

/-- Model of `_handle_dir(left, right)`: entry ignore check, then
`filecmp.dircmp` (lazy, no action by itself) and `_merge_dirs`.  When the
pair is not two directories CPython would raise from `dircmp`; this is
modelled as a non-mutating failure return. -/
def handleDir (u : U) (ln rn : Option FSNode) (lp rp : FPath) :
    Option FSNode × List Effect × Bool :=
  if u.curIgn [lp, rp] then (rn, [], true)
  else
    match ln, rn with
    | some (FSNode.dir lc), some (FSNode.dir rc) =>
      let s := mergeDirs u lc rc lp rp
      (some (FSNode.dir s.1), s.2, true)
    | _, _ => (rn, [], false)

/-- Dispatch step of `_update`: directory targets go to `_handle_dir`,
everything else to `_handle_file` (with the default `compare=True`). -/
def dispatch (u : U) (ln rn : Option FSNode) (left right : FPath) : Bool × List Effect :=
  match ln with
  | some (FSNode.dir _) =>
    let s := handleDir u ln rn left right
    (s.2.2, s.2.1)
  | _ =>
    let s := handleFileN u ln rn left right true
    (s.2.2, s.2.1)

/-- The merged ignore set `list(set(self.ignore + dotfile.upignore))` of
`_update`. -/
def mergePats (global upignore : List String) : List String :=
  (global ++ upignore).dedup

/-- Model of `_update(path, dotfile)`.  `ln`/`rn` are the nodes currently
stored under the expanded deployed path and the managed path.  The write
transformation (`_apply_trans_w`) is modelled by the oracles `transOut`
(transformed content, `none` = failure), `transTmp` (the
`utils.get_unique_tmp_name` result) and `transFailedLeft` (whether a failed
transformation left a file at the temporary path). -/
def updateOne (u : U) (p : FPath) (df : Dotfile) (ln rn : Option FSNode) :
    Bool × List Effect :=
  let u1 := { u with curIgn := u.matchIgn (mergePats u.ignore df.upignore) }
  let left := u.expandP p
  let right := u.dotpathRoot ++ df.src
  if u1.curIgn [left, right] then (true, [])
  else
    match df.transW with
    | some tk =>
      match u.transOut tk with
      | none =>
        (false, Effect.errE ("transformation \"" ++ tk ++ "\" failed for " ++ df.key) ::
          (if u.transFailedLeft then [Effect.removeF u.transTmp] else []))
      | some c =>
        let s := dispatch u1 (some (FSNode.file c)) rn u.transTmp right
        (s.1, Effect.writeTmpF u.transTmp c :: (s.2 ++ [Effect.removeF u.transTmp]))
    | none => dispatch u1 ln rn left right

/-- Model of `_get_dotfile_by_key(key)`.  Mirrors the source faithfully,
including the ambiguity message joining `d.src` over the whole profile list
`dotfiles` rather than the matching sublist `subs`. -/
def getDotfileByKey (u : U) (k : String) : Option Dotfile × List Effect :=
  let subs := u.dotfiles.filter (fun d => d.key == k)
  match subs with
  | [] => (none, [Effect.errE ("key \"" ++ k ++ "\" not found!")])
  | [d] => (some d, [])
  | d :: _ :: _ =>
    (none, [Effect.errE ("multiple dotfiles found: " ++
      String.intercalate "," (u.dotfiles.map (fun d => pstr d.src)))])

/-- Model of `_get_dotfile_by_path(path)` (same structure and same
ambiguity-message source list as `_get_dotfile_by_key`). -/
def getDotfileByPath (u : U) (p : FPath) : Option Dotfile × List Effect :=
  let subs := u.dotfiles.filter (fun d => d.dst == p)
  match subs with
  | [] => (none, [Effect.errE ("\"" ++ pstr p ++ "\" is not managed!")])
  | [d] => (some d, [])
  | d :: _ :: _ =>
    (none, [Effect.errE ("multiple dotfiles found: " ++
      String.intercalate "," (u.dotfiles.map (fun d => pstr d.src)))])

/-- Model of `update_path(path)`: existence check (`os.path.lexists`),
normalization, lookup by destination path, then `_update`. -/
def updatePath (u : U) (p : FPath) (ln rn : Option FSNode) : Bool × List Effect :=
  if !(u.lexists p) then
    (false, [Effect.errE ("\"" ++ pstr p ++ "\" does not exist!")])
  else
    match getDotfileByPath u (u.normalizeP p) with
    | (none, es) => (false, es)
    | (some df, es) => let s := updateOne u (u.normalizeP p) df ln rn
                       (s.1, es ++ s.2)

/-- Model of `update_key(key)`: lookup by key, then `_update` on the
normalized destination path. -/
def updateKey (u : U) (k : String) (ln rn : Option FSNode) : Bool × List Effect :=
  match getDotfileByKey u k with
  | (none, es) => (false, es)
  | (some df, es) => let s := updateOne u (u.normalizeP df.dst) df ln rn
                     (s.1, es ++ s.2)

/-! Character-level model of `_normalize(path)` for the round-trip claim.
`_normalize` manipulates paths as strings (`startswith`, slicing,
`os.path.join`), so it is modelled over `List Char`.  `os.path.expanduser`
is implemented for the `~`-prefix cases the function uses;
`os.path.expandvars` and `os.path.abspath` are external oracles passed as
function arguments.  On variable-free, already canonical-absolute paths
both are the identity and the round-trip holds; on other paths under home
they rewrite the input before the home prefix is replaced, so the
round-trip fails (see the counterexample below). -/

/-- Model of `os.path.expanduser` on the home prefix `~` (paths of the form
`~user/...` are outside the model). -/
def expanduserC (home p : List Char) : List Char :=
  if p = ['~'] then home
  else if ['~', '/'].isPrefixOf p then home ++ p.drop 1
  else p

/-- Model of `posixpath.join(a, b)` for two components. -/
def pjoinC (a b : List Char) : List Char :=
  if b.head? = some '/' then b
  else if a = [] then b
  else if a.getLast? = some '/' then a ++ b
  else a ++ '/' :: b

/-- Model of `_normalize(path)`: expand user and variables, make absolute,
then rewrite a home-directory prefix to the `~` marker via
`os.path.join(TILD, rest)`. -/
def normalizeC (ev ap : List Char → List Char) (home p : List Char) : List Char :=
  let p1 := expanduserC home p
  let p2 := ev p1
  let p3 := ap p2
  let h := expanduserC home ['~'] ++ ['/']
  if h.isPrefixOf p3 then pjoinC ['~'] (p3.drop h.length) else p3

/-! Basic lemmas about the listing primitives. -/

theorem look_eq_none_iff {xs : List Entry} {n : String} :
    look xs n = none ↔ n ∉ xs.map Prod.fst := by
  induction xs with
  | nil => simp [look]
  | cons e t ih =>
    obtain ⟨k, v⟩ := e
    by_cases hk : k = n
    · subst hk
      simp [look]
    · simp [look, hk, ih, Ne.symm hk]

theorem mem_namesOf {xs : List Entry} {n : String} :
    n ∈ namesOf xs ↔ (look xs n).isSome := by
  rw [namesOf, List.mem_dedup]
  constructor
  · intro h
    rw [Option.isSome_iff_ne_none]
    intro hn
    exact (look_eq_none_iff.mp hn) h
  · intro h
    by_contra hn
    rw [look_eq_none_iff.mpr hn] at h
    simp at h

@[simp] theorem look_setK_self (xs : List Entry) (n : String) (v : FSNode) :
    look (setK xs n v) n = some v := by
  induction xs with
  | nil => simp [setK, look]
  | cons e t ih =>
    obtain ⟨k, w⟩ := e
    by_cases hk : k = n
    · simp [setK, hk, look]
    · simp [setK, hk, look, ih]

theorem look_setK_ne {m n : String} (h : m ≠ n) (xs : List Entry) (v : FSNode) :
    look (setK xs n v) m = look xs m := by
  induction xs with
  | nil => simp [setK, look, Ne.symm h]
  | cons e t ih =>
    obtain ⟨k, w⟩ := e
    by_cases hk : k = n
    · subst hk
      simp [setK, look, Ne.symm h]
    · simp [setK, hk, look, ih]

theorem removeK_cons_self {k : String} {w : FSNode} {t : List Entry} :
    removeK ((k, w) :: t) k = removeK t k := by
  simp [removeK, List.filter_cons]

theorem removeK_cons_ne {k n : String} (hk : k ≠ n) {w : FSNode} {t : List Entry} :
    removeK ((k, w) :: t) n = (k, w) :: removeK t n := by
  simp [removeK, List.filter_cons, hk]

theorem look_removeK_self (xs : List Entry) (n : String) :
    look (removeK xs n) n = none := by
  induction xs with
  | nil => simp [removeK, look]
  | cons e t ih =>
    obtain ⟨k, w⟩ := e
    by_cases hk : k = n
    · subst hk
      rw [removeK_cons_self, ih]
    · rw [removeK_cons_ne hk]
      simp only [look]
      rw [if_neg hk, ih]

theorem look_removeK_ne {m n : String} (h : m ≠ n) (xs : List Entry) :
    look (removeK xs n) m = look xs m := by
  induction xs with
  | nil => simp [removeK, look]
  | cons e t ih =>
    obtain ⟨k, w⟩ := e
    by_cases hk : k = n
    · subst hk
      rw [removeK_cons_self, ih]
      simp only [look]
      rw [if_neg (Ne.symm h)]
    · rw [removeK_cons_ne hk]
      simp only [look]
      by_cases hm : k = m
      · rw [if_pos hm, if_pos hm]
      · rw [if_neg hm, if_neg hm, ih]

theorem nodup_namesOf (xs : List Entry) : (namesOf xs).Nodup :=
  List.nodup_dedup _

theorem nodup_leftOnly (l r : List Entry) : (leftOnly l r).Nodup :=
  (nodup_namesOf l).filter _

theorem nodup_rightOnly (l r : List Entry) : (rightOnly l r).Nodup :=
  (nodup_namesOf r).filter _

theorem nodup_commonNames (l r : List Entry) : (commonNames l r).Nodup :=
  (nodup_namesOf l).filter _

theorem nodup_commonDirNames (l r : List Entry) : (commonDirNames l r).Nodup :=
  (nodup_commonNames l r).filter _

theorem mem_leftOnly {l r : List Entry} {n : String} :
    n ∈ leftOnly l r ↔ (look l n).isSome ∧ look r n = none := by
  simp [leftOnly, List.mem_filter, mem_namesOf, Option.isNone_iff_eq_none]

theorem mem_rightOnly {l r : List Entry} {n : String} :
    n ∈ rightOnly l r ↔ (look r n).isSome ∧ look l n = none := by
  simp [rightOnly, List.mem_filter, mem_namesOf, Option.isNone_iff_eq_none]

theorem mem_commonNames {l r : List Entry} {n : String} :
    n ∈ commonNames l r ↔ (look l n).isSome ∧ (look r n).isSome := by
  simp [commonNames, List.mem_filter, mem_namesOf]

theorem mem_diffFileNames {l r : List Entry} {n : String} :
    n ∈ diffFileNames l r ↔
      ∃ a b, look l n = some (FSNode.file a) ∧ look r n = some (FSNode.file b) ∧ a ≠ b := by
  rw [diffFileNames, List.mem_filter]
  rcases hl : look l n with _ | v
  · simp [mem_commonNames, hl]
  · rcases hr : look r n with _ | w
    · simp [mem_commonNames, hl, hr]
    · cases v <;> cases w <;> simp [mem_commonNames, hl, hr]

theorem mem_funnyNames {l r : List Entry} {n : String} :
    n ∈ funnyNames l r ↔
      (look l n).isSome ∧ (look r n).isSome ∧ isDirO (look l n) ≠ isDirO (look r n) := by
  rw [funnyNames, List.mem_filter]
  simp [mem_commonNames, and_assoc]

theorem mem_commonDirNames {l r : List Entry} {n : String} :
    n ∈ commonDirNames l r ↔
      ∃ lc rc, look l n = some (FSNode.dir lc) ∧ look r n = some (FSNode.dir rc) := by
  rw [commonDirNames, List.mem_filter]
  rcases hl : look l n with _ | v
  · simp [mem_commonNames, hl]
  · rcases hr : look r n with _ | w
    · simp [mem_commonNames, hl, hr]
    · cases v <;> cases w <;> simp [mem_commonNames, hl, hr, isDirO]

/-! Characterization of `_handle_file`. -/

/-- Whether an optional node is a regular file. -/
def isFileO : Option FSNode → Bool
  | some (FSNode.file _) => true
  | _ => false

/-- The exact condition under which `_handle_file` performs its copy: the
pair is not ignored, the managed file is not a template, the shallow
compare does not short-circuit, the safe-mode prompt is not declined, dry
mode is off, the source is a regular file, and the copy itself does not
fail. -/
def copyHappens (u : U) (ln rn : Option FSNode) (left right : FPath) (compare : Bool) : Bool :=
  !(u.curIgn [left, right]) && !(isTemplateO u rn) && !(compare && cmpSh ln rn) &&
  !(u.safe && !(u.ask (owMsg left right))) && !u.dry && isFileO ln &&
  !(isDirO rn || u.copyError left right)

/-- A mutation effect respects the ignore matcher: its direct target pair
(or path, for removals) is not ignored. -/
def mutOK (u : U) : Effect → Prop
  | Effect.copyF a b => u.curIgn [a, b] = false
  | Effect.copyT a b => u.curIgn [a, b] = false
  | Effect.removeF p => u.curIgn [p] = false
  | _ => True

/-- Master case analysis of `_handle_file`: either the copy condition holds
and the call performs exactly one copy of the deployed file onto the
managed path, or it does not and the call leaves the managed node
untouched, performing no mutating action; in both cases every mutating
action targets a non-ignored pair. -/
theorem handleFile_cases (u : U) (ln rn : Option FSNode) (left right : FPath) (compare : Bool) :
    (copyHappens u ln rn left right compare = true ∧
      ∃ a, ln = some (FSNode.file a) ∧
        handleFileN u ln rn left right compare =
          (some (FSNode.file a),
            (if u.safe then [Effect.askE (owMsg left right)] else []) ++
              [Effect.copyF left right],
            true)) ∨
    (copyHappens u ln rn left right compare = false ∧
      (handleFileN u ln rn left right compare).1 = rn ∧
      (handleFileN u ln rn left right compare).2.1.filter isMut = [] ∧
      ∀ e ∈ (handleFileN u ln rn left right compare).2.1, mutOK u e) := by
  by_cases h1 : u.curIgn [left, right] = true
  · right
    refine ⟨by simp [copyHappens, h1], ?_⟩
    simp [handleFileN, h1, mutOK]
  · simp only [Bool.not_eq_true] at h1
    by_cases h2 : isTemplateO u rn = true
    · right
      refine ⟨by simp [copyHappens, h2], ?_⟩
      rcases rn with _ | v
      · simp [isTemplateO] at h2
      · rcases v with c | sub
        · simp only [handleFileN, h1, h2, Bool.false_eq_true, if_false, if_true]
          refine ⟨by trivial, ?_, ?_⟩
          · split_ifs <;> simp [patchFx, isMut]
          · split_ifs <;> simp [patchFx, mutOK]
        · simp [isTemplateO] at h2
    · simp only [Bool.not_eq_true] at h2
      by_cases h3 : (compare && cmpSh ln rn) = true
      · right
        refine ⟨by simp [copyHappens, h3], ?_⟩
        simp [handleFileN, fileCopyStage, h1, h2, h3, mutOK]
      · simp only [Bool.not_eq_true] at h3
        by_cases h4 : (u.safe && !(u.ask (owMsg left right))) = true
        · right
          refine ⟨by simp [copyHappens, h4], ?_⟩
          simp only [handleFileN, fileCopyStage, h1, h2, h3, h4, Bool.false_eq_true,
            if_false, if_true]
          refine ⟨by trivial, ?_, ?_⟩
          · split_ifs <;> simp [isMut]
          · split_ifs <;> simp [mutOK]
        · simp only [Bool.not_eq_true] at h4
          by_cases h5 : u.dry = true
          · right
            refine ⟨by simp [copyHappens, h5], ?_⟩
            simp only [handleFileN, fileCopyStage, h1, h2, h3, h4, h5, Bool.false_eq_true,
              if_false, if_true]
            refine ⟨by trivial, ?_, ?_⟩
            · split_ifs <;> simp [isMut]
            · split_ifs <;> simp [mutOK]
          · simp only [Bool.not_eq_true] at h5
            rcases ln with _ | v
            · right
              refine ⟨by simp [copyHappens, isFileO], ?_⟩
              simp only [handleFileN, fileCopyStage, h1, h2, h3, h4, h5, Bool.false_eq_true,
                if_false, if_true]
              refine ⟨by trivial, ?_, ?_⟩
              · split_ifs <;> simp [isMut]
              · split_ifs <;> simp [mutOK]
            · rcases v with c | sub
              · by_cases h7 : (isDirO rn || u.copyError left right) = true
                · right
                  refine ⟨by simp [copyHappens, h7], ?_⟩
                  simp only [handleFileN, fileCopyStage, h1, h2, h3, h4, h5, h7,
                    Bool.false_eq_true, if_false, if_true]
                  refine ⟨by trivial, ?_, ?_⟩
                  · split_ifs <;> simp [isMut]
                  · split_ifs <;> simp [mutOK]
                · simp only [Bool.not_eq_true] at h7
                  left
                  refine ⟨by simp [copyHappens, h1, h2, h3, h4, h5, h7, isFileO], c, rfl, ?_⟩
                  simp [handleFileN, fileCopyStage, h1, h2, h3, h4, h5, h7]
              · right
                refine ⟨by simp [copyHappens, isFileO], ?_⟩
                simp only [handleFileN, fileCopyStage, h1, h2, h3, h4, h5, Bool.false_eq_true,
                  if_false, if_true]
                refine ⟨by trivial, ?_, ?_⟩
                · split_ifs <;> simp [isMut]
                · split_ifs <;> simp [mutOK]

theorem handleFile_fst_of_not_copy {u : U} {ln rn : Option FSNode} {left right : FPath}
    {compare : Bool} (h : copyHappens u ln rn left right compare = false) :
    (handleFileN u ln rn left right compare).1 = rn := by
  rcases handleFile_cases u ln rn left right compare with ⟨hc, _⟩ | ⟨_, h1, _, _⟩
  · rw [h] at hc
    cases hc
  · exact h1

theorem handleFile_mut_of_not_copy {u : U} {ln rn : Option FSNode} {left right : FPath}
    {compare : Bool} (h : copyHappens u ln rn left right compare = false) :
    (handleFileN u ln rn left right compare).2.1.filter isMut = [] := by
  rcases handleFile_cases u ln rn left right compare with ⟨hc, _⟩ | ⟨_, _, h2, _⟩
  · rw [h] at hc
    cases hc
  · exact h2

theorem handleFile_fst_of_copy {u : U} {ln rn : Option FSNode} {left right : FPath}
    {compare : Bool} (h : copyHappens u ln rn left right compare = true) :
    ∃ a, ln = some (FSNode.file a) ∧
      (handleFileN u ln rn left right compare).1 = some (FSNode.file a) := by
  rcases handleFile_cases u ln rn left right compare with ⟨_, a, ha, he⟩ | ⟨hc, _⟩
  · exact ⟨a, ha, by rw [he]⟩
  · rw [h] at hc
    cases hc

theorem handleFile_targets {u : U} {ln rn : Option FSNode} {left right : FPath}
    {compare : Bool} (hc : u.curIgn [left, right] = false) :
    ∀ e ∈ (handleFileN u ln rn left right compare).2.1, mutOK u e := by
  rcases handleFile_cases u ln rn left right compare with ⟨_, a, _, he⟩ | ⟨_, _, _, h4⟩
  · rw [he]
    intro e hee
    simp only [List.mem_append, List.mem_singleton] at hee
    rcases hee with hee | hee
    · split_ifs at hee <;> simp_all [mutOK]
    · subst hee
      exact hc
  · exact h4

/-! Per-loop lemmas for `_merge_dirs`: how each loop over a name list
transforms the managed listing at a given key, and when it emits mutating
effects. -/

theorem addDirs_look_not_mem {u : U} {l : List Entry} {names : List String} {n : String}
    (h : n ∉ names) : ∀ r lp rp, look (addDirsLoop u l names r lp rp).1 n = look r n := by
  induction names with
  | nil => intro r lp rp; simp [addDirsLoop]
  | cons m rest ih =>
    intro r lp rp
    have hmn : n ≠ m := fun he => h (he ▸ List.mem_cons_self _ _)
    have hrest : n ∉ rest := fun hr => h (List.mem_cons_of_mem _ hr)
    rcases hl : look l m with _ | v
    · simp [addDirsLoop, hl, ih hrest]
    · rcases v with c | sub
      · simp [addDirsLoop, hl, ih hrest]
      · by_cases hig : u.curIgn [lp ++ [m], rp ++ [m]] = true
        · simp [addDirsLoop, hl, hig, ih hrest]
        · by_cases hdry : u.dry = true
          · simp [addDirsLoop, hl, hig, hdry, ih hrest]
          · simp [addDirsLoop, hl, hig, hdry, ih hrest, look_setK_ne hmn]

theorem addDirs_look_mem_dir {u : U} {l : List Entry} {names : List String} {n : String}
    {sub : List Entry} (hnd : names.Nodup) (h : n ∈ names)
    (hl : look l n = some (FSNode.dir sub)) :
    ∀ r lp rp, look (addDirsLoop u l names r lp rp).1 n =
      if u.curIgn [lp ++ [n], rp ++ [n]] || u.dry then look r n else some (FSNode.dir sub) := by
  induction names with
  | nil => cases h
  | cons m rest ih =>
    intro r lp rp
    rcases List.mem_cons.mp h with he | hr
    · subst he
      have hrest : n ∉ rest := (List.nodup_cons.mp hnd).1
      by_cases hig : u.curIgn [lp ++ [n], rp ++ [n]] = true
      · simp [addDirsLoop, hl, hig, addDirs_look_not_mem hrest]
      · by_cases hdry : u.dry = true
        · simp [addDirsLoop, hl, hig, hdry, addDirs_look_not_mem hrest]
        · simp [addDirsLoop, hl, hig, hdry, addDirs_look_not_mem hrest]
    · have hmn : n ≠ m := by
        rintro rfl
        exact (List.nodup_cons.mp hnd).1 hr
      have hih := ih (List.nodup_cons.mp hnd).2 hr
      rcases hl2 : look l m with _ | v
      · simp only [addDirsLoop, hl2]
        exact hih r lp rp
      · rcases v with c | sub2
        · simp only [addDirsLoop, hl2]
          exact hih r lp rp
        · by_cases hig : u.curIgn [lp ++ [m], rp ++ [m]] = true
          · simp [addDirsLoop, hl2, hig, hih r lp rp]
          · by_cases hdry : u.dry = true
            · simp [addDirsLoop, hl2, hig, hdry, hih r lp rp]
            · simp [addDirsLoop, hl2, hig, hdry, hih _ lp rp, look_setK_ne hmn]

theorem addDirs_look_mem_nondir {u : U} {l : List Entry} {names : List String} {n : String}
    (hl : isDirO (look l n) = false) :
    ∀ r lp rp, look (addDirsLoop u l names r lp rp).1 n = look r n := by
  induction names with
  | nil => intro r lp rp; simp [addDirsLoop]
  | cons m rest ih =>
    intro r lp rp
    rcases hl2 : look l m with _ | v
    · simp only [addDirsLoop, hl2]
      exact ih r lp rp
    · rcases v with c | sub2
      · simp only [addDirsLoop, hl2]
        exact ih r lp rp
      · have hmn : n ≠ m := by
          rintro rfl
          rw [hl2] at hl
          simp [isDirO] at hl
        by_cases hig : u.curIgn [lp ++ [m], rp ++ [m]] = true
        · simp [addDirsLoop, hl2, hig, ih r lp rp]
        · by_cases hdry : u.dry = true
          · simp [addDirsLoop, hl2, hig, hdry, ih r lp rp]
          · simp [addDirsLoop, hl2, hig, hdry, ih _ lp rp, look_setK_ne hmn]

theorem addDirs_no_mut {u : U} {l : List Entry} {names : List String} {lp rp : FPath}
    (h : ∀ n ∈ names, ∀ sub, look l n = some (FSNode.dir sub) →
      u.curIgn [lp ++ [n], rp ++ [n]] = true ∨ u.dry = true) :
    ∀ r, ((addDirsLoop u l names r lp rp).2).filter isMut = [] := by
  induction names with
  | nil => intro r; simp [addDirsLoop]
  | cons m rest ih =>
    intro r
    have hrest : ∀ n ∈ rest, ∀ sub, look l n = some (FSNode.dir sub) →
        u.curIgn [lp ++ [n], rp ++ [n]] = true ∨ u.dry = true :=
      fun n hn => h n (List.mem_cons_of_mem _ hn)
    rcases hl : look l m with _ | v
    · simp [addDirsLoop, hl, ih hrest]
    · rcases v with c | sub
      · simp [addDirsLoop, hl, ih hrest]
      · rcases h m (List.mem_cons_self _ _) sub hl with hig | hdry
        · simp [addDirsLoop, hl, hig, ih hrest]
        · by_cases hig : u.curIgn [lp ++ [m], rp ++ [m]] = true
          · simp [addDirsLoop, hl, hig, ih hrest]
          · simp [addDirsLoop, hl, hig, hdry, ih hrest, isMut]

theorem addDirs_targets {u : U} {l : List Entry} {names : List String} {lp rp : FPath} :
    ∀ r, ∀ e ∈ (addDirsLoop u l names r lp rp).2, mutOK u e := by
  induction names with
  | nil => intro r e he; simp [addDirsLoop] at he
  | cons m rest ih =>
    intro r e he
    rcases hl : look l m with _ | v
    · simp only [addDirsLoop, hl] at he
      exact ih r e he
    · rcases v with c | sub
      · simp only [addDirsLoop, hl] at he
        exact ih r e he
      · by_cases hig : u.curIgn [lp ++ [m], rp ++ [m]] = true
        · simp only [addDirsLoop, hl] at he
          rw [if_pos hig] at he
          exact ih r e he
        · by_cases hdry : u.dry = true
          · simp [addDirsLoop, hl, hig, hdry] at he
            rcases he with he | he
            · subst he; exact trivial
            · exact ih r e he
          · simp [addDirsLoop, hl, hig, hdry] at he
            rcases he with he | he
            · subst he
              simpa [mutOK] using hig
            · exact ih _ e he

theorem rmDirs_look_not_mem {u : U} {names : List String} {n : String}
    (h : n ∉ names) : ∀ r rp, look (rmDirsLoop u names r rp).1 n = look r n := by
  induction names with
  | nil => intro r rp; simp [rmDirsLoop]
  | cons m rest ih =>
    intro r rp
    have hmn : n ≠ m := fun he => h (he ▸ List.mem_cons_self _ _)
    have hrest : n ∉ rest := fun hr => h (List.mem_cons_of_mem _ hr)
    rcases hl : look r m with _ | v
    · simp only [rmDirsLoop, hl]
      exact ih hrest r rp
    · rcases v with c | sub
      · simp only [rmDirsLoop, hl]
        exact ih hrest r rp
      · by_cases hig : u.curIgn [rp ++ [m]] = true
        · simp [rmDirsLoop, hl, hig, ih hrest]
        · by_cases hdry : u.dry = true
          · simp [rmDirsLoop, hl, hig, hdry, ih hrest]
          · by_cases hdec : (u.safe && !(u.ask (rmMsg (rp ++ [m])))) = true
            · simp [rmDirsLoop, hl, hig, hdry, hdec, ih hrest]
            · simp [rmDirsLoop, hl, hig, hdry, hdec, ih hrest, look_removeK_ne hmn]

theorem rmDirs_look_mem_dir {u : U} {names : List String} {n : String}
    (hnd : names.Nodup) (h : n ∈ names) :
    ∀ r rp d, look r n = some (FSNode.dir d) →
      look (rmDirsLoop u names r rp).1 n =
        (if u.curIgn [rp ++ [n]] || u.dry || (u.safe && !(u.ask (rmMsg (rp ++ [n])))) then
          some (FSNode.dir d) else none) := by
  induction names with
  | nil => cases h
  | cons m rest ih =>
    intro r rp d hr
    rcases List.mem_cons.mp h with he | hmem
    · subst he
      have hrest : n ∉ rest := (List.nodup_cons.mp hnd).1
      by_cases hig : u.curIgn [rp ++ [n]] = true
      · simp [rmDirsLoop, hr, hig, rmDirs_look_not_mem hrest, hr]
      · by_cases hdry : u.dry = true
        · simp [rmDirsLoop, hr, hig, hdry, rmDirs_look_not_mem hrest, hr]
        · by_cases hdec : (u.safe && !(u.ask (rmMsg (rp ++ [n])))) = true
          · simp [rmDirsLoop, hr, hig, hdry, hdec, rmDirs_look_not_mem hrest, hr]
          · simp [rmDirsLoop, hr, hig, hdry, hdec, rmDirs_look_not_mem hrest,
              look_removeK_self]
    · have hmn : n ≠ m := by
        rintro rfl
        exact (List.nodup_cons.mp hnd).1 hmem
      have hih := ih (List.nodup_cons.mp hnd).2 hmem
      rcases hl : look r m with _ | v
      · simp only [rmDirsLoop, hl]
        exact hih r rp d hr
      · rcases v with c | sub
        · simp only [rmDirsLoop, hl]
          exact hih r rp d hr
        · by_cases hig : u.curIgn [rp ++ [m]] = true
          · simp [rmDirsLoop, hl, hig, hih r rp d hr]
          · by_cases hdry : u.dry = true
            · simp [rmDirsLoop, hl, hig, hdry, hih r rp d hr]
            · by_cases hdec : (u.safe && !(u.ask (rmMsg (rp ++ [m])))) = true
              · simp [rmDirsLoop, hl, hig, hdry, hdec, hih r rp d hr]
              · have hr2 : look (removeK r m) n = some (FSNode.dir d) := by
                  rw [look_removeK_ne hmn, hr]
                simp [rmDirsLoop, hl, hig, hdry, hdec, hih _ rp d hr2]

theorem rmDirs_look_nondir {u : U} {names : List String} {n : String} :
    ∀ r rp, isDirO (look r n) = false → look (rmDirsLoop u names r rp).1 n = look r n := by
  induction names with
  | nil => intro r rp _; simp [rmDirsLoop]
  | cons m rest ih =>
    intro r rp hnd
    rcases hl : look r m with _ | v
    · simp only [rmDirsLoop, hl]
      exact ih r rp hnd
    · rcases v with c | sub
      · simp only [rmDirsLoop, hl]
        exact ih r rp hnd
      · have hmn : n ≠ m := by
          rintro rfl
          rw [hl] at hnd
          simp [isDirO] at hnd
        by_cases hig : u.curIgn [rp ++ [m]] = true
        · simp [rmDirsLoop, hl, hig, ih r rp hnd]
        · by_cases hdry : u.dry = true
          · simp [rmDirsLoop, hl, hig, hdry, ih r rp hnd]
          · by_cases hdec : (u.safe && !(u.ask (rmMsg (rp ++ [m])))) = true
            · simp [rmDirsLoop, hl, hig, hdry, hdec, ih r rp hnd]
            · have hnd2 : isDirO (look (removeK r m) n) = false := by
                rw [look_removeK_ne hmn]
                exact hnd
              simp [rmDirsLoop, hl, hig, hdry, hdec, ih _ rp hnd2, look_removeK_ne hmn]

theorem rmDirs_no_mut {u : U} {names : List String} :
    ∀ r rp, (∀ n ∈ names, ∀ d, look r n = some (FSNode.dir d) →
      u.curIgn [rp ++ [n]] = true ∨ u.dry = true ∨
        (u.safe = true ∧ u.ask (rmMsg (rp ++ [n])) = false)) →
    ((rmDirsLoop u names r rp).2).filter isMut = [] := by
  induction names with
  | nil => intro r rp _; simp [rmDirsLoop]
  | cons m rest ih =>
    intro r rp h
    have hrest : ∀ n ∈ rest, ∀ d, look r n = some (FSNode.dir d) →
        u.curIgn [rp ++ [n]] = true ∨ u.dry = true ∨
          (u.safe = true ∧ u.ask (rmMsg (rp ++ [n])) = false) :=
      fun n hn => h n (List.mem_cons_of_mem _ hn)
    rcases hl : look r m with _ | v
    · simp only [rmDirsLoop, hl]
      exact ih r rp hrest
    · rcases v with c | sub
      · simp only [rmDirsLoop, hl]
        exact ih r rp hrest
      · by_cases hig : u.curIgn [rp ++ [m]] = true
        · simp [rmDirsLoop, hl, hig, ih r rp hrest]
        · by_cases hdry : u.dry = true
          · simp [rmDirsLoop, hl, hig, hdry, ih r rp hrest, isMut]
          · by_cases hdec : (u.safe && !(u.ask (rmMsg (rp ++ [m])))) = true
            · simp [rmDirsLoop, hl, hig, hdry, hdec, ih r rp hrest, isMut]
            · exfalso
              rcases h m (List.mem_cons_self _ _) sub hl with hc | hc | ⟨hs, ha⟩
              · exact hig hc
              · exact hdry hc
              · exact hdec (by simp [hs, ha])

theorem rmDirs_targets {u : U} {names : List String} :
    ∀ r rp, ∀ e ∈ (rmDirsLoop u names r rp).2, mutOK u e := by
  induction names with
  | nil => intro r rp e he; simp [rmDirsLoop] at he
  | cons m rest ih =>
    intro r rp e he
    rcases hl : look r m with _ | v
    · simp only [rmDirsLoop, hl] at he
      exact ih r rp e he
    · rcases v with c | sub
      · simp only [rmDirsLoop, hl] at he
        exact ih r rp e he
      · by_cases hig : u.curIgn [rp ++ [m]] = true
        · simp only [rmDirsLoop, hl] at he
          rw [if_pos hig] at he
          exact ih r rp e he
        · by_cases hdry : u.dry = true
          · simp [rmDirsLoop, hl, hig, hdry] at he
            rcases he with he | he
            · subst he; exact trivial
            · exact ih r rp e he
          · by_cases hdec : (u.safe && !(u.ask (rmMsg (rp ++ [m])))) = true
            · simp [rmDirsLoop, hl, hig, hdry, hdec] at he
              rcases he with he | he
              · rcases he with ⟨_, he⟩
                subst he
                exact trivial
              · exact ih r rp e he
            · simp [rmDirsLoop, hl, hig, hdry, hdec] at he
              rcases he with he | he | he
              · rcases he with ⟨_, he⟩
                subst he
                exact trivial
              · subst he
                simpa [mutOK] using hig
              · exact ih _ rp e he

theorem sync_look_not_mem {u : U} {l : List Entry} {names : List String} {n : String}
    (h : n ∉ names) : ∀ r lp rp, look (syncFilesLoop u l names r lp rp).1 n = look r n := by
  induction names with
  | nil => intro r lp rp; simp [syncFilesLoop]
  | cons m rest ih =>
    intro r lp rp
    have hmn : n ≠ m := fun he => h (he ▸ List.mem_cons_self _ _)
    have hrest : n ∉ rest := fun hr => h (List.mem_cons_of_mem _ hr)
    by_cases hig : u.curIgn [lp ++ [m], rp ++ [m]] = true
    · simp [syncFilesLoop, hig, ih hrest]
    · by_cases hdry : u.dry = true
      · simp [syncFilesLoop, hig, hdry, ih hrest]
      · rcases hh : (handleFileN u (look l m) (look r m) (lp ++ [m]) (rp ++ [m]) false).1
          with _ | v
        · simp [syncFilesLoop, hig, hdry, hh, ih hrest]
        · simp [syncFilesLoop, hig, hdry, hh, ih hrest, look_setK_ne hmn]

theorem sync_look_mem {u : U} {l : List Entry} {names : List String} {n : String}
    (hnd : names.Nodup) (h : n ∈ names) :
    ∀ r lp rp, look (syncFilesLoop u l names r lp rp).1 n =
      (if u.curIgn [lp ++ [n], rp ++ [n]] || u.dry then look r n
       else (handleFileN u (look l n) (look r n) (lp ++ [n]) (rp ++ [n]) false).1) := by
  induction names with
  | nil => cases h
  | cons m rest ih =>
    intro r lp rp
    rcases List.mem_cons.mp h with he | hmem
    · subst he
      have hrest : n ∉ rest := (List.nodup_cons.mp hnd).1
      by_cases hig : u.curIgn [lp ++ [n], rp ++ [n]] = true
      · simp [syncFilesLoop, hig, sync_look_not_mem hrest]
      · by_cases hdry : u.dry = true
        · simp [syncFilesLoop, hig, hdry, sync_look_not_mem hrest]
        · rcases hh : (handleFileN u (look l n) (look r n) (lp ++ [n]) (rp ++ [n]) false).1
            with _ | v
          · have hrn : look r n = none := by
              rcases handleFile_cases u (look l n) (look r n) (lp ++ [n], rp ++ [n]).1
                  (lp ++ [n], rp ++ [n]).2 false
                with ⟨_, a, _, he2⟩ | ⟨_, h1, _, _⟩
              · rw [he2] at hh
                cases hh
              · rw [← h1, hh]
            rw [hrn] at hh
            simp [syncFilesLoop, hig, hdry, hh, sync_look_not_mem hrest, hrn]
          · simp [syncFilesLoop, hig, hdry, hh, sync_look_not_mem hrest, look_setK_self]
    · have hmn : n ≠ m := by
        rintro rfl
        exact (List.nodup_cons.mp hnd).1 hmem
      have hih := ih (List.nodup_cons.mp hnd).2 hmem
      by_cases hig : u.curIgn [lp ++ [m], rp ++ [m]] = true
      · simp [syncFilesLoop, hig, hih r lp rp]
      · by_cases hdry : u.dry = true
        · simp [syncFilesLoop, hig, hdry, hih r lp rp]
        · rcases hh : (handleFileN u (look l m) (look r m) (lp ++ [m], rp ++ [m]).1
              (lp ++ [m], rp ++ [m]).2 false).1 with _ | v
          · simp only [syncFilesLoop, hig, hdry] at hh ⊢
            simp [hh, hih r lp rp, hdry]
          · simp only [syncFilesLoop, hig, hdry] at hh ⊢
            have := hih (setK r m v) lp rp
            rw [look_setK_ne hmn] at this
            simp [hh, this, hdry]

theorem sync_no_mut {u : U} {l : List Entry} {names : List String}
    (hnd : names.Nodup) :
    ∀ r lp rp, (∀ n ∈ names, u.curIgn [lp ++ [n], rp ++ [n]] = true ∨ u.dry = true ∨
      copyHappens u (look l n) (look r n) (lp ++ [n]) (rp ++ [n]) false = false) →
    ((syncFilesLoop u l names r lp rp).2).filter isMut = [] := by
  induction names with
  | nil => intro r lp rp _; simp [syncFilesLoop]
  | cons m rest ih =>
    intro r lp rp h
    have hnd2 := (List.nodup_cons.mp hnd).2
    have hnm : m ∉ rest := (List.nodup_cons.mp hnd).1
    by_cases hig : u.curIgn [lp ++ [m], rp ++ [m]] = true
    · have hrest : ∀ n ∈ rest, u.curIgn [lp ++ [n], rp ++ [n]] = true ∨ u.dry = true ∨
          copyHappens u (look l n) (look r n) (lp ++ [n]) (rp ++ [n]) false = false :=
        fun n hn => h n (List.mem_cons_of_mem _ hn)
      simp [syncFilesLoop, hig, ih hnd2 r lp rp hrest]
    · by_cases hdry : u.dry = true
      · have hrest : ∀ n ∈ rest, u.curIgn [lp ++ [n], rp ++ [n]] = true ∨ u.dry = true ∨
            copyHappens u (look l n) (look r n) (lp ++ [n], rp ++ [n]).1
              (lp ++ [n], rp ++ [n]).2 false = false :=
          fun n hn => h n (List.mem_cons_of_mem _ hn)
        simp [syncFilesLoop, hig, hdry, ih hnd2 r lp rp hrest, isMut]
      · rcases h m (List.mem_cons_self _ _) with hc | hc | hc
        · exact absurd hc hig
        · exact absurd hc hdry
        · have hmut := handleFile_mut_of_not_copy hc
          have hfst := handleFile_fst_of_not_copy hc
          have hkey : ∀ n ∈ rest,
              look (match (handleFileN u (look l m) (look r m)
                  (lp ++ [m]) (rp ++ [m]) false).1 with
                | some v => setK r m v
                | none => r) n = look r n := by
            intro n hn
            have hmn : n ≠ m := by
              rintro rfl
              exact hnm hn
            rcases hh : (handleFileN u (look l m) (look r m)
                (lp ++ [m]) (rp ++ [m]) false).1 with _ | v
            · rfl
            · simp only
              rw [look_setK_ne hmn]
          have hrest : ∀ n ∈ rest,
              u.curIgn [lp ++ [n], rp ++ [n]] = true ∨ u.dry = true ∨
              copyHappens u (look l n)
                (look (match (handleFileN u (look l m) (look r m)
                    (lp ++ [m]) (rp ++ [m]) false).1 with
                  | some v => setK r m v
                  | none => r) n) (lp ++ [n]) (rp ++ [n]) false = false := by
            intro n hn
            rw [hkey n hn]
            exact h n (List.mem_cons_of_mem _ hn)
          simp only [syncFilesLoop, hig, hdry, Bool.false_eq_true, if_false]
          rw [List.filter_append, hmut, List.nil_append]
          exact ih hnd2 _ lp rp hrest

theorem sync_targets {u : U} {l : List Entry} {names : List String} :
    ∀ r lp rp, ∀ e ∈ (syncFilesLoop u l names r lp rp).2, mutOK u e := by
  induction names with
  | nil => intro r lp rp e he; simp [syncFilesLoop] at he
  | cons m rest ih =>
    intro r lp rp e he
    by_cases hig : u.curIgn [lp ++ [m], rp ++ [m]] = true
    · simp only [syncFilesLoop] at he
      rw [if_pos hig] at he
      exact ih r lp rp e he
    · by_cases hdry : u.dry = true
      · simp [syncFilesLoop, hig, hdry] at he
        rcases he with he | he
        · subst he; exact trivial
        · exact ih r lp rp e he
      · simp only [syncFilesLoop, hig, hdry, Bool.false_eq_true, if_false,
          List.mem_append] at he
        rcases he with he | he
        · exact handleFile_targets (by simpa using hig) e he
        · exact ih _ lp rp e he

theorem addFiles_look_not_mem {u : U} {l : List Entry} {names : List String} {n : String}
    (h : n ∉ names) : ∀ r lp rp, look (addFilesLoop u l names r lp rp).1 n = look r n := by
  induction names with
  | nil => intro r lp rp; simp [addFilesLoop]
  | cons m rest ih =>
    intro r lp rp
    have hmn : n ≠ m := fun he => h (he ▸ List.mem_cons_self _ _)
    have hrest : n ∉ rest := fun hr => h (List.mem_cons_of_mem _ hr)
    rcases hl : look l m with _ | v
    · simp only [addFilesLoop, hl]
      exact ih hrest r lp rp
    · rcases v with c | sub
      · by_cases hig : u.curIgn [lp ++ [m], rp ++ [m]] = true
        · simp [addFilesLoop, hl, hig, ih hrest]
        · by_cases hdry : u.dry = true
          · simp [addFilesLoop, hl, hig, hdry, ih hrest]
          · simp [addFilesLoop, hl, hig, hdry, ih hrest, look_setK_ne hmn]
      · simp only [addFilesLoop, hl]
        exact ih hrest r lp rp

theorem addFiles_look_mem_file {u : U} {l : List Entry} {names : List String} {n : String}
    {c : Content} (hnd : names.Nodup) (h : n ∈ names)
    (hl : look l n = some (FSNode.file c)) :
    ∀ r lp rp, look (addFilesLoop u l names r lp rp).1 n =
      if u.curIgn [lp ++ [n], rp ++ [n]] || u.dry then look r n else some (FSNode.file c) := by
  induction names with
  | nil => cases h
  | cons m rest ih =>
    intro r lp rp
    rcases List.mem_cons.mp h with he | hmem
    · subst he
      have hrest : n ∉ rest := (List.nodup_cons.mp hnd).1
      by_cases hig : u.curIgn [lp ++ [n], rp ++ [n]] = true
      · simp [addFilesLoop, hl, hig, addFiles_look_not_mem hrest]
      · by_cases hdry : u.dry = true
        · simp [addFilesLoop, hl, hig, hdry, addFiles_look_not_mem hrest]
        · simp [addFilesLoop, hl, hig, hdry, addFiles_look_not_mem hrest, look_setK_self]
    · have hmn : n ≠ m := by
        rintro rfl
        exact (List.nodup_cons.mp hnd).1 hmem
      have hih := ih (List.nodup_cons.mp hnd).2 hmem
      rcases hl2 : look l m with _ | v
      · simp only [addFilesLoop, hl2]
        exact hih r lp rp
      · rcases v with c2 | sub2
        · by_cases hig : u.curIgn [lp ++ [m], rp ++ [m]] = true
          · simp [addFilesLoop, hl2, hig, hih r lp rp]
          · by_cases hdry : u.dry = true
            · simp [addFilesLoop, hl2, hig, hdry, hih r lp rp]
            · simp [addFilesLoop, hl2, hig, hdry, hih _ lp rp, look_setK_ne hmn]
        · simp only [addFilesLoop, hl2]
          exact hih r lp rp

theorem addFiles_look_nonfile {u : U} {l : List Entry} {names : List String} {n : String}
    (hl : isFileO (look l n) = false) :
    ∀ r lp rp, look (addFilesLoop u l names r lp rp).1 n = look r n := by
  induction names with
  | nil => intro r lp rp; simp [addFilesLoop]
  | cons m rest ih =>
    intro r lp rp
    rcases hl2 : look l m with _ | v
    · simp only [addFilesLoop, hl2]
      exact ih r lp rp
    · rcases v with c | sub
      · have hmn : n ≠ m := by
          rintro rfl
          rw [hl2] at hl
          simp [isFileO] at hl
        by_cases hig : u.curIgn [lp ++ [m], rp ++ [m]] = true
        · simp [addFilesLoop, hl2, hig, ih r lp rp]
        · by_cases hdry : u.dry = true
          · simp [addFilesLoop, hl2, hig, hdry, ih r lp rp]
          · simp [addFilesLoop, hl2, hig, hdry, ih _ lp rp, look_setK_ne hmn]
      · simp only [addFilesLoop, hl2]
        exact ih r lp rp

theorem addFiles_no_mut {u : U} {l : List Entry} {names : List String} {lp rp : FPath}
    (h : ∀ n ∈ names, ∀ c, look l n = some (FSNode.file c) →
      u.curIgn [lp ++ [n], rp ++ [n]] = true ∨ u.dry = true) :
    ∀ r, ((addFilesLoop u l names r lp rp).2).filter isMut = [] := by
  induction names with
  | nil => intro r; simp [addFilesLoop]
  | cons m rest ih =>
    intro r
    have hrest : ∀ n ∈ rest, ∀ c, look l n = some (FSNode.file c) →
        u.curIgn [lp ++ [n], rp ++ [n]] = true ∨ u.dry = true :=
      fun n hn => h n (List.mem_cons_of_mem _ hn)
    rcases hl : look l m with _ | v
    · simp only [addFilesLoop, hl]
      exact ih hrest r
    · rcases v with c | sub
      · rcases h m (List.mem_cons_self _ _) c hl with hig | hdry
        · simp [addFilesLoop, hl, hig, ih hrest]
        · by_cases hig : u.curIgn [lp ++ [m], rp ++ [m]] = true
          · simp [addFilesLoop, hl, hig, ih hrest]
          · simp [addFilesLoop, hl, hig, hdry, ih hrest, isMut]
      · simp only [addFilesLoop, hl]
        exact ih hrest r

theorem addFiles_targets {u : U} {l : List Entry} {names : List String} {lp rp : FPath} :
    ∀ r, ∀ e ∈ (addFilesLoop u l names r lp rp).2, mutOK u e := by
  induction names with
  | nil => intro r e he; simp [addFilesLoop] at he
  | cons m rest ih =>
    intro r e he
    rcases hl : look l m with _ | v
    · simp only [addFilesLoop, hl] at he
      exact ih r e he
    · rcases v with c | sub
      · by_cases hig : u.curIgn [lp ++ [m], rp ++ [m]] = true
        · simp only [addFilesLoop, hl] at he
          rw [if_pos hig] at he
          exact ih r e he
        · by_cases hdry : u.dry = true
          · simp [addFilesLoop, hl, hig, hdry] at he
            rcases he with he | he
            · subst he; exact trivial
            · exact ih r e he
          · simp [addFilesLoop, hl, hig, hdry] at he
            rcases he with he | he
            · subst he
              simpa [mutOK] using hig
            · exact ih _ e he
      · simp only [addFilesLoop, hl] at he
        exact ih r e he

theorem rmFiles_look_not_mem {u : U} {names : List String} {n : String}
    (h : n ∉ names) : ∀ r rp, look (rmFilesLoop u names r rp).1 n = look r n := by
  induction names with
  | nil => intro r rp; simp [rmFilesLoop]
  | cons m rest ih =>
    intro r rp
    have hmn : n ≠ m := fun he => h (he ▸ List.mem_cons_self _ _)
    have hrest : n ∉ rest := fun hr => h (List.mem_cons_of_mem _ hr)
    rcases hl : look r m with _ | v
    · simp only [rmFilesLoop, hl]
      exact ih hrest r rp
    · rcases v with c | sub
      · by_cases hig : u.curIgn [rp ++ [m]] = true
        · simp [rmFilesLoop, hl, hig, ih hrest]
        · by_cases hdry : u.dry = true
          · simp [rmFilesLoop, hl, hig, hdry, ih hrest]
          · simp [rmFilesLoop, hl, hig, hdry, ih hrest, look_removeK_ne hmn]
      · simp only [rmFilesLoop, hl]
        exact ih hrest r rp

theorem rmFiles_look_mem_file {u : U} {names : List String} {n : String}
    (hnd : names.Nodup) (h : n ∈ names) :
    ∀ r rp f, look r n = some (FSNode.file f) →
      look (rmFilesLoop u names r rp).1 n =
        if u.curIgn [rp ++ [n]] || u.dry then some (FSNode.file f) else none := by
  induction names with
  | nil => cases h
  | cons m rest ih =>
    intro r rp f hr
    rcases List.mem_cons.mp h with he | hmem
    · subst he
      have hrest : n ∉ rest := (List.nodup_cons.mp hnd).1
      by_cases hig : u.curIgn [rp ++ [n]] = true
      · simp [rmFilesLoop, hr, hig, rmFiles_look_not_mem hrest, hr]
      · by_cases hdry : u.dry = true
        · simp [rmFilesLoop, hr, hig, hdry, rmFiles_look_not_mem hrest, hr]
        · simp [rmFilesLoop, hr, hig, hdry, rmFiles_look_not_mem hrest, look_removeK_self]
    · have hmn : n ≠ m := by
        rintro rfl
        exact (List.nodup_cons.mp hnd).1 hmem
      have hih := ih (List.nodup_cons.mp hnd).2 hmem
      rcases hl : look r m with _ | v
      · simp only [rmFilesLoop, hl]
        exact hih r rp f hr
      · rcases v with c | sub
        · by_cases hig : u.curIgn [rp ++ [m]] = true
          · simp [rmFilesLoop, hl, hig, hih r rp f hr]
          · by_cases hdry : u.dry = true
            · simp [rmFilesLoop, hl, hig, hdry, hih r rp f hr]
            · have hr2 : look (removeK r m) n = some (FSNode.file f) := by
                rw [look_removeK_ne hmn, hr]
              simp [rmFilesLoop, hl, hig, hdry, hih _ rp f hr2]
        · simp only [rmFilesLoop, hl]
          exact hih r rp f hr

theorem rmFiles_look_nonfile {u : U} {names : List String} {n : String} :
    ∀ r rp, isFileO (look r n) = false → look (rmFilesLoop u names r rp).1 n = look r n := by
  induction names with
  | nil => intro r rp _; simp [rmFilesLoop]
  | cons m rest ih =>
    intro r rp hnf
    rcases hl : look r m with _ | v
    · simp only [rmFilesLoop, hl]
      exact ih r rp hnf
    · rcases v with c | sub
      · have hmn : n ≠ m := by
          rintro rfl
          rw [hl] at hnf
          simp [isFileO] at hnf
        by_cases hig : u.curIgn [rp ++ [m]] = true
        · simp [rmFilesLoop, hl, hig, ih r rp hnf]
        · by_cases hdry : u.dry = true
          · simp [rmFilesLoop, hl, hig, hdry, ih r rp hnf]
          · have hnf2 : isFileO (look (removeK r m) n) = false := by
              rw [look_removeK_ne hmn]
              exact hnf
            simp [rmFilesLoop, hl, hig, hdry, ih _ rp hnf2, look_removeK_ne hmn]
      · simp only [rmFilesLoop, hl]
        exact ih r rp hnf

theorem rmFiles_no_mut {u : U} {names : List String} :
    ∀ r rp, (∀ n ∈ names, ∀ f, look r n = some (FSNode.file f) →
      u.curIgn [rp ++ [n]] = true ∨ u.dry = true) →
    ((rmFilesLoop u names r rp).2).filter isMut = [] := by
  induction names with
  | nil => intro r rp _; simp [rmFilesLoop]
  | cons m rest ih =>
    intro r rp h
    have hrest : ∀ n ∈ rest, ∀ f, look r n = some (FSNode.file f) →
        u.curIgn [rp ++ [n]] = true ∨ u.dry = true :=
      fun n hn => h n (List.mem_cons_of_mem _ hn)
    rcases hl : look r m with _ | v
    · simp only [rmFilesLoop, hl]
      exact ih r rp hrest
    · rcases v with c | sub
      · rcases h m (List.mem_cons_self _ _) c hl with hig | hdry
        · simp [rmFilesLoop, hl, hig, ih r rp hrest]
        · by_cases hig : u.curIgn [rp ++ [m]] = true
          · simp [rmFilesLoop, hl, hig, ih r rp hrest]
          · simp [rmFilesLoop, hl, hig, hdry, ih r rp hrest, isMut]
      · simp only [rmFilesLoop, hl]
        exact ih r rp hrest

theorem rmFiles_targets {u : U} {names : List String} :
    ∀ r rp, ∀ e ∈ (rmFilesLoop u names r rp).2, mutOK u e := by
  induction names with
  | nil => intro r rp e he; simp [rmFilesLoop] at he
  | cons m rest ih =>
    intro r rp e he
    rcases hl : look r m with _ | v
    · simp only [rmFilesLoop, hl] at he
      exact ih r rp e he
    · rcases v with c | sub
      · by_cases hig : u.curIgn [rp ++ [m]] = true
        · simp only [rmFilesLoop, hl] at he
          rw [if_pos hig] at he
          exact ih r rp e he
        · by_cases hdry : u.dry = true
          · simp [rmFilesLoop, hl, hig, hdry] at he
            rcases he with he | he
            · subst he; exact trivial
            · exact ih r rp e he
          · simp [rmFilesLoop, hl, hig, hdry] at he
            rcases he with he | he
            · subst he
              simpa [mutOK] using hig
            · exact ih _ rp e he
      · simp only [rmFilesLoop, hl] at he
        exact ih r rp e he

/-- Unfolding equation of `mergeSubs` for a common name that is a directory
on both sides. -/
theorem mergeSubs_cons_dirs {u : U} {l : List Entry} {n : String} {rest : List String}
    {r : List Entry} {lp rp : FPath} {lc rc : List Entry}
    (hl : look l n = some (FSNode.dir lc)) (hr : look r n = some (FSNode.dir rc)) :
    mergeSubs u l (n :: rest) r lp rp =
      ((mergeSubs u l rest
          (setK r n (FSNode.dir (mergeDirs u lc rc (lp ++ [n]) (rp ++ [n])).1)) lp rp).1,
        (mergeDirs u lc rc (lp ++ [n]) (rp ++ [n])).2 ++
          (mergeSubs u l rest
            (setK r n (FSNode.dir (mergeDirs u lc rc (lp ++ [n]) (rp ++ [n])).1)) lp rp).2) := by
  simp only [mergeSubs]
  split
  · rename_i lc2 hl2
    rw [hl] at hl2
    injection hl2 with hl3
    cases hl3
    split
    · rename_i rc2 hr2
      rw [hr] at hr2
      injection hr2 with hr3
      cases hr3
      rfl
    · rename_i hne
      exact absurd hr (hne rc)
  · rename_i hne
    exact absurd hl (hne lc)

/-- Unfolding equation of `mergeSubs` for a name that is not a directory on
both sides: the recursion skips it. -/
theorem mergeSubs_cons_skip {u : U} {l : List Entry} {n : String} {rest : List String}
    {r : List Entry} {lp rp : FPath}
    (h : (isDirO (look l n) && isDirO (look r n)) = false) :
    mergeSubs u l (n :: rest) r lp rp = mergeSubs u l rest r lp rp := by
  simp only [mergeSubs]
  split
  · rename_i lc2 hl2
    split
    · rename_i rc2 hr2
      rw [hl2, hr2] at h
      simp [isDirO] at h
    · rfl
  · rfl

theorem mergeSubs_look_not_mem {u : U} {l : List Entry} {cds : List String} {n : String}
    (h : n ∉ cds) : ∀ r lp rp, look (mergeSubs u l cds r lp rp).1 n = look r n := by
  induction cds with
  | nil => intro r lp rp; simp [mergeSubs]
  | cons m rest ih =>
    intro r lp rp
    have hmn : n ≠ m := fun he => h (he ▸ List.mem_cons_self _ _)
    have hrest : n ∉ rest := fun hr => h (List.mem_cons_of_mem _ hr)
    rcases hl : look l m with _ | v
    · rw [mergeSubs_cons_skip (by simp [hl, isDirO])]
      exact ih hrest r lp rp
    · rcases v with c | lc
      · rw [mergeSubs_cons_skip (by simp [hl, isDirO])]
        exact ih hrest r lp rp
      · rcases hr : look r m with _ | w
        · rw [mergeSubs_cons_skip (by simp [hr, isDirO])]
          exact ih hrest r lp rp
        · rcases w with c2 | rc
          · rw [mergeSubs_cons_skip (by simp [hr, isDirO])]
            exact ih hrest r lp rp
          · rw [mergeSubs_cons_dirs hl hr]
            rw [ih hrest _ lp rp, look_setK_ne hmn]

theorem mergeSubs_look_mem_dirs {u : U} {l : List Entry} {cds : List String} {n : String}
    (hnd : cds.Nodup) (h : n ∈ cds) :
    ∀ r lp rp lc rc, look l n = some (FSNode.dir lc) → look r n = some (FSNode.dir rc) →
      look (mergeSubs u l cds r lp rp).1 n =
        some (FSNode.dir (mergeDirs u lc rc (lp ++ [n]) (rp ++ [n])).1) := by
  induction cds with
  | nil => cases h
  | cons m rest ih =>
    intro r lp rp lc rc hl hr
    rcases List.mem_cons.mp h with he | hmem
    · subst he
      have hrest : n ∉ rest := (List.nodup_cons.mp hnd).1
      rw [mergeSubs_cons_dirs hl hr]
      dsimp only
      rw [mergeSubs_look_not_mem hrest, look_setK_self]
    · have hmn : n ≠ m := by
        rintro rfl
        exact (List.nodup_cons.mp hnd).1 hmem
      have hih := ih (List.nodup_cons.mp hnd).2 hmem
      rcases hl2 : look l m with _ | v
      · rw [mergeSubs_cons_skip (by simp [hl2, isDirO])]
        exact hih r lp rp lc rc hl hr
      · rcases v with c | lc2
        · rw [mergeSubs_cons_skip (by simp [hl2, isDirO])]
          exact hih r lp rp lc rc hl hr
        · rcases hr2 : look r m with _ | w
          · rw [mergeSubs_cons_skip (by simp [hr2, isDirO])]
            exact hih r lp rp lc rc hl hr
          · rcases w with c2 | rc2
            · rw [mergeSubs_cons_skip (by simp [hr2, isDirO])]
              exact hih r lp rp lc rc hl hr
            · have hr3 : look (setK r m
                  (FSNode.dir (mergeDirs u lc2 rc2 (lp ++ [m]) (rp ++ [m])).1)) n =
                  some (FSNode.dir rc) := by
                rw [look_setK_ne hmn, hr]
              rw [mergeSubs_cons_dirs hl2 hr2]
              dsimp only
              exact hih _ lp rp lc rc hl hr3

theorem mergeSubs_look_other {u : U} {l : List Entry} {cds : List String} {n : String} :
    ∀ r lp rp, (isDirO (look l n) && isDirO (look r n)) = false →
      look (mergeSubs u l cds r lp rp).1 n = look r n := by
  induction cds with
  | nil => intro r lp rp _; simp [mergeSubs]
  | cons m rest ih =>
    intro r lp rp hcond
    rcases hl2 : look l m with _ | v
    · rw [mergeSubs_cons_skip (by simp [hl2, isDirO])]
      exact ih r lp rp hcond
    · rcases v with c | lc2
      · rw [mergeSubs_cons_skip (by simp [hl2, isDirO])]
        exact ih r lp rp hcond
      · rcases hr2 : look r m with _ | w
        · rw [mergeSubs_cons_skip (by simp [hr2, isDirO])]
          exact ih r lp rp hcond
        · rcases w with c2 | rc2
          · rw [mergeSubs_cons_skip (by simp [hr2, isDirO])]
            exact ih r lp rp hcond
          · have hmn : n ≠ m := by
              rintro rfl
              rw [hl2, hr2] at hcond
              simp [isDirO] at hcond
            have hcond2 : (isDirO (look l n) && isDirO (look (setK r m
                (FSNode.dir (mergeDirs u lc2 rc2 (lp ++ [m]) (rp ++ [m])).1)) n)) = false := by
              rw [look_setK_ne hmn]
              exact hcond
            rw [mergeSubs_cons_dirs hl2 hr2]
            dsimp only
            rw [ih _ lp rp hcond2, look_setK_ne hmn]

theorem mergeSubs_no_mut {u : U} {l : List Entry} {cds : List String} (hnd : cds.Nodup) :
    ∀ r lp rp, (∀ n ∈ cds, ∀ lc rc, look l n = some (FSNode.dir lc) →
      look r n = some (FSNode.dir rc) →
      ((mergeDirs u lc rc (lp ++ [n]) (rp ++ [n])).2).filter isMut = []) →
    ((mergeSubs u l cds r lp rp).2).filter isMut = [] := by
  induction cds with
  | nil => intro r lp rp _; simp [mergeSubs]
  | cons m rest ih =>
    intro r lp rp h
    have hnd2 := (List.nodup_cons.mp hnd).2
    have hnm : m ∉ rest := (List.nodup_cons.mp hnd).1
    have hrest0 : ∀ n ∈ rest, ∀ lc rc, look l n = some (FSNode.dir lc) →
        look r n = some (FSNode.dir rc) →
        ((mergeDirs u lc rc (lp ++ [n]) (rp ++ [n])).2).filter isMut = [] :=
      fun n hn => h n (List.mem_cons_of_mem _ hn)
    rcases hl2 : look l m with _ | v
    · rw [mergeSubs_cons_skip (by simp [hl2, isDirO])]
      exact ih hnd2 r lp rp hrest0
    · rcases v with c | lc2
      · rw [mergeSubs_cons_skip (by simp [hl2, isDirO])]
        exact ih hnd2 r lp rp hrest0
      · rcases hr2 : look r m with _ | w
        · rw [mergeSubs_cons_skip (by simp [hr2, isDirO])]
          exact ih hnd2 r lp rp hrest0
        · rcases w with c2 | rc2
          · rw [mergeSubs_cons_skip (by simp [hr2, isDirO])]
            exact ih hnd2 r lp rp hrest0
          · have hm := h m (List.mem_cons_self _ _) lc2 rc2 hl2 hr2
            have hrest : ∀ n ∈ rest, ∀ lc rc, look l n = some (FSNode.dir lc) →
                look (setK r m
                  (FSNode.dir (mergeDirs u lc2 rc2 (lp ++ [m]) (rp ++ [m])).1)) n =
                  some (FSNode.dir rc) →
                ((mergeDirs u lc rc (lp ++ [n]) (rp ++ [n])).2).filter isMut = [] := by
              intro n hn lc rc hl3 hr3
              have hmn : n ≠ m := by
                rintro rfl
                exact hnm hn
              rw [look_setK_ne hmn] at hr3
              exact h n (List.mem_cons_of_mem _ hn) lc rc hl3 hr3
            rw [mergeSubs_cons_dirs hl2 hr2]
            dsimp only
            rw [List.filter_append, hm, List.nil_append]
            exact ih hnd2 _ lp rp hrest

theorem mergeSubs_targets {u : U} {l : List Entry} {cds : List String} (hnd : cds.Nodup) :
    ∀ r lp rp, (∀ n ∈ cds, ∀ lc rc, look l n = some (FSNode.dir lc) →
      look r n = some (FSNode.dir rc) →
      ∀ e ∈ (mergeDirs u lc rc (lp ++ [n]) (rp ++ [n])).2, mutOK u e) →
    ∀ e ∈ (mergeSubs u l cds r lp rp).2, mutOK u e := by
  induction cds with
  | nil => intro r lp rp _ e he; simp [mergeSubs] at he
  | cons m rest ih =>
    intro r lp rp h e he
    have hnd2 := (List.nodup_cons.mp hnd).2
    have hnm : m ∉ rest := (List.nodup_cons.mp hnd).1
    have hrest0 : ∀ n ∈ rest, ∀ lc rc, look l n = some (FSNode.dir lc) →
        look r n = some (FSNode.dir rc) →
        ∀ e2 ∈ (mergeDirs u lc rc (lp ++ [n]) (rp ++ [n])).2, mutOK u e2 :=
      fun n hn => h n (List.mem_cons_of_mem _ hn)
    rcases hl2 : look l m with _ | v
    · rw [mergeSubs_cons_skip (by simp [hl2, isDirO])] at he
      exact ih hnd2 r lp rp hrest0 e he
    · rcases v with c | lc2
      · rw [mergeSubs_cons_skip (by simp [hl2, isDirO])] at he
        exact ih hnd2 r lp rp hrest0 e he
      · rcases hr2 : look r m with _ | w
        · rw [mergeSubs_cons_skip (by simp [hr2, isDirO])] at he
          exact ih hnd2 r lp rp hrest0 e he
        · rcases w with c2 | rc2
          · rw [mergeSubs_cons_skip (by simp [hr2, isDirO])] at he
            exact ih hnd2 r lp rp hrest0 e he
          · have hrest : ∀ n ∈ rest, ∀ lc rc, look l n = some (FSNode.dir lc) →
                look (setK r m
                  (FSNode.dir (mergeDirs u lc2 rc2 (lp ++ [m]) (rp ++ [m])).1)) n =
                  some (FSNode.dir rc) →
                ∀ e2 ∈ (mergeDirs u lc rc (lp ++ [n]) (rp ++ [n])).2, mutOK u e2 := by
              intro n hn lc rc hl3 hr3
              have hmn : n ≠ m := by
                rintro rfl
                exact hnm hn
              rw [look_setK_ne hmn] at hr3
              exact h n (List.mem_cons_of_mem _ hn) lc rc hl3 hr3
            rw [mergeSubs_cons_dirs hl2 hr2] at he
            dsimp only at he
            rw [List.mem_append] at he
            rcases he with he | he
            · exact h m (List.mem_cons_self _ _) lc2 rc2 hl2 hr2 e he
            · exact ih hnd2 _ lp rp hrest e he

/-! Lemmas at the level of `_merge_dirs` itself. -/

theorem nodup_diffFunny (l r : List Entry) : (diffFileNames l r ++ funnyNames l r).Nodup := by
  apply List.Nodup.append
  · exact (nodup_commonNames l r).filter _
  · exact (nodup_commonNames l r).filter _
  · intro n h1 h2
    rcases mem_diffFileNames.mp h1 with ⟨a, b, hla, hrb, _⟩
    rcases mem_funnyNames.mp h2 with ⟨_, _, hmis⟩
    rw [hla, hrb] at hmis
    simp [isDirO] at hmis

theorem mergeDirs_of_ign {u : U} {l r : List Entry} {lp rp : FPath}
    (hig : u.curIgn [lp, rp] = true) : mergeDirs u l r lp rp = (r, []) := by
  simp [mergeDirs, hig]

theorem mergeDirs_fst {u : U} {l r : List Entry} {lp rp : FPath}
    (hig : u.curIgn [lp, rp] = false) :
    (mergeDirs u l r lp rp).1 =
      (mergeSubs u l (commonDirNames l r)
        (rmFilesLoop u (rightOnly l r)
          (addFilesLoop u l (leftOnly l r)
            (syncFilesLoop u l (diffFileNames l r ++ funnyNames l r)
              (rmDirsLoop u (rightOnly l r)
                (addDirsLoop u l (leftOnly l r) r lp rp).1 rp).1 lp rp).1 lp rp).1 rp).1
        lp rp).1 := by
  simp [mergeDirs, hig]

theorem mergeDirs_snd {u : U} {l r : List Entry} {lp rp : FPath}
    (hig : u.curIgn [lp, rp] = false) :
    (mergeDirs u l r lp rp).2 =
      (addDirsLoop u l (leftOnly l r) r lp rp).2 ++
      ((rmDirsLoop u (rightOnly l r) (addDirsLoop u l (leftOnly l r) r lp rp).1 rp).2 ++
      ((syncFilesLoop u l (diffFileNames l r ++ funnyNames l r)
          (rmDirsLoop u (rightOnly l r) (addDirsLoop u l (leftOnly l r) r lp rp).1 rp).1
          lp rp).2 ++
      ((addFilesLoop u l (leftOnly l r)
          (syncFilesLoop u l (diffFileNames l r ++ funnyNames l r)
            (rmDirsLoop u (rightOnly l r) (addDirsLoop u l (leftOnly l r) r lp rp).1 rp).1
            lp rp).1 lp rp).2 ++
      ((rmFilesLoop u (rightOnly l r)
          (addFilesLoop u l (leftOnly l r)
            (syncFilesLoop u l (diffFileNames l r ++ funnyNames l r)
              (rmDirsLoop u (rightOnly l r) (addDirsLoop u l (leftOnly l r) r lp rp).1 rp).1
              lp rp).1 lp rp).1 rp).2 ++
      (mergeSubs u l (commonDirNames l r)
        (rmFilesLoop u (rightOnly l r)
          (addFilesLoop u l (leftOnly l r)
            (syncFilesLoop u l (diffFileNames l r ++ funnyNames l r)
              (rmDirsLoop u (rightOnly l r) (addDirsLoop u l (leftOnly l r) r lp rp).1 rp).1
              lp rp).1 lp rp).1 rp).1
        lp rp).2)))) := by
  simp [mergeDirs, hig]

/-- In dry-run mode `_merge_dirs` performs no mutating filesystem action at
any recursion depth. -/
theorem mergeDirs_dry_aux (u : U) (hdry : u.dry = true) :
    ∀ k l, sizeOf l ≤ k → ∀ r lp rp,
      ((mergeDirs u l r lp rp).2).filter isMut = [] := by
  intro k
  induction k with
  | zero =>
    intro l hl r lp rp
    exfalso
    cases l <;> simp at hl
  | succ k ih =>
    intro l hl r lp rp
    by_cases hig : u.curIgn [lp, rp] = true
    · simp [mergeDirs_of_ign hig]
    · simp only [Bool.not_eq_true] at hig
      rw [mergeDirs_snd hig]
      rw [List.filter_append, List.filter_append, List.filter_append, List.filter_append,
        List.filter_append]
      rw [addDirs_no_mut (fun n _ sub _ => Or.inr hdry)]
      rw [rmDirs_no_mut _ _ (fun n _ d _ => Or.inr (Or.inl hdry))]
      rw [sync_no_mut (nodup_diffFunny l r) _ _ _ (fun n _ => Or.inr (Or.inl hdry))]
      rw [addFiles_no_mut (fun n _ c _ => Or.inr hdry)]
      rw [rmFiles_no_mut _ _ (fun n _ f _ => Or.inr hdry)]
      rw [mergeSubs_no_mut (nodup_commonDirNames l r)]
      · simp
      · intro n _ lc rc hlc _
        have hsz : sizeOf lc < sizeOf l := sizeOf_look_dir hlc
        exact ih lc (by omega) rc (lp ++ [n]) (rp ++ [n])

/-- In dry-run mode `_merge_dirs` performs no mutating filesystem action. -/
theorem mergeDirs_dry {u : U} (hdry : u.dry = true) (l r : List Entry) (lp rp : FPath) :
    ((mergeDirs u l r lp rp).2).filter isMut = [] :=
  mergeDirs_dry_aux u hdry (sizeOf l) l le_rfl r lp rp

theorem mergeDirs_targets_aux (u : U) :
    ∀ k l, sizeOf l ≤ k → ∀ r lp rp, ∀ e ∈ (mergeDirs u l r lp rp).2, mutOK u e := by
  intro k
  induction k with
  | zero =>
    intro l hl r lp rp
    exfalso
    cases l <;> simp at hl
  | succ k ih =>
    intro l hl r lp rp e he
    by_cases hig : u.curIgn [lp, rp] = true
    · rw [mergeDirs_of_ign hig] at he
      simp at he
    · simp only [Bool.not_eq_true] at hig
      rw [mergeDirs_snd hig] at he
      simp only [List.mem_append] at he
      rcases he with he | he | he | he | he | he
      · exact addDirs_targets _ e he
      · exact rmDirs_targets _ _ e he
      · exact sync_targets _ _ _ e he
      · exact addFiles_targets _ e he
      · exact rmFiles_targets _ _ e he
      · refine mergeSubs_targets (nodup_commonDirNames l r) _ lp rp ?_ e he
        intro n _ lc rc hlc _ e2 he2
        have hsz : sizeOf lc < sizeOf l := sizeOf_look_dir hlc
        exact ih lc (by omega) rc (lp ++ [n]) (rp ++ [n]) e2 he2

/-- Every mutating action of `_merge_dirs` (copy, recursive copy, removal)
directly targets a path pair that the ignore matcher does not match. -/
theorem mergeDirs_targets (u : U) (l r : List Entry) (lp rp : FPath) :
    ∀ e ∈ (mergeDirs u l r lp rp).2, mutOK u e :=
  mergeDirs_targets_aux u (sizeOf l) l le_rfl r lp rp

/-! Membership helper lemmas for the diff name lists. -/

theorem not_mem_leftOnly_left {l r : List Entry} {n : String} (hl : look l n = none) :
    n ∉ leftOnly l r := fun hm => by
  rcases mem_leftOnly.mp hm with ⟨hs, _⟩
  rw [hl] at hs
  simp at hs

theorem not_mem_leftOnly_right {l r : List Entry} {n : String} {w : FSNode}
    (hr : look r n = some w) : n ∉ leftOnly l r := fun hm => by
  rcases mem_leftOnly.mp hm with ⟨_, hn⟩
  rw [hr] at hn
  cases hn

theorem not_mem_rightOnly_right {l r : List Entry} {n : String} (hr : look r n = none) :
    n ∉ rightOnly l r := fun hm => by
  rcases mem_rightOnly.mp hm with ⟨hs, _⟩
  rw [hr] at hs
  simp at hs

theorem not_mem_rightOnly_left {l r : List Entry} {n : String} {v : FSNode}
    (hl : look l n = some v) : n ∉ rightOnly l r := fun hm => by
  rcases mem_rightOnly.mp hm with ⟨_, hn⟩
  rw [hl] at hn
  cases hn

theorem not_mem_fd_left_none {l r : List Entry} {n : String} (hl : look l n = none) :
    n ∉ diffFileNames l r ++ funnyNames l r := fun hm => by
  rcases List.mem_append.mp hm with hm | hm
  · rcases mem_diffFileNames.mp hm with ⟨a, _, hla, _, _⟩
    rw [hl] at hla
    cases hla
  · rcases mem_funnyNames.mp hm with ⟨hs, _, _⟩
    rw [hl] at hs
    simp at hs

theorem not_mem_fd_right_none {l r : List Entry} {n : String} (hr : look r n = none) :
    n ∉ diffFileNames l r ++ funnyNames l r := fun hm => by
  rcases List.mem_append.mp hm with hm | hm
  · rcases mem_diffFileNames.mp hm with ⟨_, b, _, hrb, _⟩
    rw [hr] at hrb
    cases hrb
  · rcases mem_funnyNames.mp hm with ⟨_, hs, _⟩
    rw [hr] at hs
    simp at hs

theorem not_mem_fd_dirs {l r : List Entry} {n : String} {lc rc : List Entry}
    (hl : look l n = some (FSNode.dir lc)) (hr : look r n = some (FSNode.dir rc)) :
    n ∉ diffFileNames l r ++ funnyNames l r := fun hm => by
  rcases List.mem_append.mp hm with hm | hm
  · rcases mem_diffFileNames.mp hm with ⟨a, _, hla, _, _⟩
    rw [hl] at hla
    cases hla
  · rcases mem_funnyNames.mp hm with ⟨_, _, hmis⟩
    rw [hl, hr] at hmis
    simp [isDirO] at hmis

theorem not_mem_fd_eq_files {l r : List Entry} {n : String} {a : Content}
    (hl : look l n = some (FSNode.file a)) (hr : look r n = some (FSNode.file a)) :
    n ∉ diffFileNames l r ++ funnyNames l r := fun hm => by
  rcases List.mem_append.mp hm with hm | hm
  · rcases mem_diffFileNames.mp hm with ⟨a2, b2, hla, hrb, hne⟩
    rw [hl] at hla
    rw [hr] at hrb
    injection hla with hla
    injection hrb with hrb
    injection hla with hla
    injection hrb with hrb
    exact hne (by rw [← hla, ← hrb])
  · rcases mem_funnyNames.mp hm with ⟨_, _, hmis⟩
    rw [hl, hr] at hmis
    simp [isDirO] at hmis

theorem mem_fd_diff {l r : List Entry} {n : String} {a b : Content}
    (hl : look l n = some (FSNode.file a)) (hr : look r n = some (FSNode.file b))
    (hne : a ≠ b) : n ∈ diffFileNames l r ++ funnyNames l r :=
  List.mem_append.mpr (Or.inl (mem_diffFileNames.mpr ⟨a, b, hl, hr, hne⟩))

theorem mem_fd_funny_df {l r : List Entry} {n : String} {lc : List Entry} {f : Content}
    (hl : look l n = some (FSNode.dir lc)) (hr : look r n = some (FSNode.file f)) :
    n ∈ diffFileNames l r ++ funnyNames l r :=
  List.mem_append.mpr (Or.inr (mem_funnyNames.mpr
    ⟨by simp [hl], by simp [hr], by rw [hl, hr]; simp [isDirO]⟩))

theorem mem_fd_funny_fd {l r : List Entry} {n : String} {a : Content} {d : List Entry}
    (hl : look l n = some (FSNode.file a)) (hr : look r n = some (FSNode.dir d)) :
    n ∈ diffFileNames l r ++ funnyNames l r :=
  List.mem_append.mpr (Or.inr (mem_funnyNames.mpr
    ⟨by simp [hl], by simp [hr], by rw [hl, hr]; simp [isDirO]⟩))

theorem not_mem_cd_of {l r : List Entry} {n : String}
    (h : (isDirO (look l n) && isDirO (look r n)) = false) :
    n ∉ commonDirNames l r := fun hm => by
  rcases mem_commonDirNames.mp hm with ⟨lc, rc, hlc, hrc⟩
  rw [hlc, hrc] at h
  simp [isDirO] at h

/-! Per-key result of one `_merge_dirs` pass, by the shapes of the deployed
and managed entries at that key. -/

theorem mergeKey_nn {u : U} {l r : List Entry} {lp rp : FPath} {n : String}
    (hl : look l n = none) (hr : look r n = none) :
    look (mergeDirs u l r lp rp).1 n = none := by
  by_cases hig : u.curIgn [lp, rp] = true
  · rw [mergeDirs_of_ign hig]
    exact hr
  · simp only [Bool.not_eq_true] at hig
    rw [mergeDirs_fst hig]
    rw [mergeSubs_look_not_mem (not_mem_cd_of (by simp [hr, isDirO]))]
    rw [rmFiles_look_not_mem (not_mem_rightOnly_right hr)]
    rw [addFiles_look_not_mem (not_mem_leftOnly_left hl)]
    rw [sync_look_not_mem (not_mem_fd_left_none hl)]
    rw [rmDirs_look_not_mem (not_mem_rightOnly_right hr)]
    rw [addDirs_look_not_mem (not_mem_leftOnly_left hl)]
    exact hr

theorem mergeKey_dn {u : U} {l r : List Entry} {lp rp : FPath} {n : String}
    {sub : List Entry} (hig : u.curIgn [lp, rp] = false) (hdry : u.dry = false)
    (hl : look l n = some (FSNode.dir sub)) (hr : look r n = none) :
    look (mergeDirs u l r lp rp).1 n =
      if u.curIgn [lp ++ [n], rp ++ [n]] then none else some (FSNode.dir sub) := by
  rw [mergeDirs_fst hig]
  rw [mergeSubs_look_not_mem (not_mem_cd_of (by simp [hr, isDirO]))]
  rw [rmFiles_look_not_mem (not_mem_rightOnly_right hr)]
  rw [addFiles_look_nonfile (by simp [hl, isFileO])]
  rw [sync_look_not_mem (not_mem_fd_right_none hr)]
  rw [rmDirs_look_not_mem (not_mem_rightOnly_right hr)]
  rw [addDirs_look_mem_dir (nodup_leftOnly l r)
    (mem_leftOnly.mpr ⟨by simp [hl], hr⟩) hl]
  rw [hr, hdry]
  simp

theorem mergeKey_fn {u : U} {l r : List Entry} {lp rp : FPath} {n : String}
    {c : Content} (hig : u.curIgn [lp, rp] = false) (hdry : u.dry = false)
    (hl : look l n = some (FSNode.file c)) (hr : look r n = none) :
    look (mergeDirs u l r lp rp).1 n =
      if u.curIgn [lp ++ [n], rp ++ [n]] then none else some (FSNode.file c) := by
  rw [mergeDirs_fst hig]
  rw [mergeSubs_look_not_mem (not_mem_cd_of (by simp [hl, isDirO]))]
  rw [rmFiles_look_not_mem (not_mem_rightOnly_right hr)]
  rw [addFiles_look_mem_file (nodup_leftOnly l r)
    (mem_leftOnly.mpr ⟨by simp [hl], hr⟩) hl]
  rw [sync_look_not_mem (not_mem_fd_right_none hr)]
  rw [rmDirs_look_not_mem (not_mem_rightOnly_right hr)]
  rw [addDirs_look_mem_nondir (by simp [hl, isDirO])]
  rw [hr, hdry]
  simp

theorem mergeKey_nd {u : U} {l r : List Entry} {lp rp : FPath} {n : String}
    {d : List Entry} (hig : u.curIgn [lp, rp] = false) (hdry : u.dry = false)
    (hl : look l n = none) (hr : look r n = some (FSNode.dir d)) :
    look (mergeDirs u l r lp rp).1 n =
      if u.curIgn [rp ++ [n]] || (u.safe && !(u.ask (rmMsg (rp ++ [n])))) then
        some (FSNode.dir d) else none := by
  rw [mergeDirs_fst hig]
  set s1 := (addDirsLoop u l (leftOnly l r) r lp rp).1 with e1
  set s2 := (rmDirsLoop u (rightOnly l r) s1 rp).1 with e2
  set s3 := (syncFilesLoop u l (diffFileNames l r ++ funnyNames l r) s2 lp rp).1 with e3
  set s4 := (addFilesLoop u l (leftOnly l r) s3 lp rp).1 with e4
  have h1 : look s1 n = some (FSNode.dir d) := by
    rw [e1, addDirs_look_not_mem (not_mem_leftOnly_left hl), hr]
  have h2 : look s2 n =
      if u.curIgn [rp ++ [n]] || u.dry || (u.safe && !(u.ask (rmMsg (rp ++ [n])))) then
        some (FSNode.dir d) else none := by
    rw [e2, rmDirs_look_mem_dir (nodup_rightOnly l r)
      (mem_rightOnly.mpr ⟨by simp [hr], hl⟩) s1 rp d h1]
  have h3 : look s3 n = look s2 n := by
    rw [e3, sync_look_not_mem (not_mem_fd_left_none hl)]
  have h4 : look s4 n = look s2 n := by
    rw [e4, addFiles_look_not_mem (not_mem_leftOnly_left hl), h3]
  have h5 : isFileO (look s4 n) = false := by
    rw [h4, h2]
    split_ifs <;> simp [isFileO]
  rw [mergeSubs_look_not_mem (not_mem_cd_of (by simp [hl, isDirO]))]
  rw [rmFiles_look_nonfile _ _ h5, h4, h2, hdry]
  simp

theorem mergeKey_nf {u : U} {l r : List Entry} {lp rp : FPath} {n : String}
    {f : Content} (hig : u.curIgn [lp, rp] = false) (hdry : u.dry = false)
    (hl : look l n = none) (hr : look r n = some (FSNode.file f)) :
    look (mergeDirs u l r lp rp).1 n =
      if u.curIgn [rp ++ [n]] then some (FSNode.file f) else none := by
  rw [mergeDirs_fst hig]
  set s1 := (addDirsLoop u l (leftOnly l r) r lp rp).1 with e1
  set s2 := (rmDirsLoop u (rightOnly l r) s1 rp).1 with e2
  set s3 := (syncFilesLoop u l (diffFileNames l r ++ funnyNames l r) s2 lp rp).1 with e3
  set s4 := (addFilesLoop u l (leftOnly l r) s3 lp rp).1 with e4
  have h1 : look s1 n = some (FSNode.file f) := by
    rw [e1, addDirs_look_not_mem (not_mem_leftOnly_left hl), hr]
  have h2 : look s2 n = some (FSNode.file f) := by
    rw [e2, rmDirs_look_nondir s1 rp (by rw [h1]; simp [isDirO]), h1]
  have h3 : look s3 n = some (FSNode.file f) := by
    rw [e3, sync_look_not_mem (not_mem_fd_left_none hl), h2]
  have h4 : look s4 n = some (FSNode.file f) := by
    rw [e4, addFiles_look_not_mem (not_mem_leftOnly_left hl), h3]
  rw [mergeSubs_look_not_mem (not_mem_cd_of (by simp [hl, isDirO]))]
  rw [rmFiles_look_mem_file (nodup_rightOnly l r)
    (mem_rightOnly.mpr ⟨by simp [hr], hl⟩) s4 rp f h4, hdry]
  simp

theorem mergeKey_dd {u : U} {l r : List Entry} {lp rp : FPath} {n : String}
    {lc rc : List Entry} (hig : u.curIgn [lp, rp] = false)
    (hl : look l n = some (FSNode.dir lc)) (hr : look r n = some (FSNode.dir rc)) :
    look (mergeDirs u l r lp rp).1 n =
      some (FSNode.dir (mergeDirs u lc rc (lp ++ [n]) (rp ++ [n])).1) := by
  rw [mergeDirs_fst hig]
  set s1 := (addDirsLoop u l (leftOnly l r) r lp rp).1 with e1
  set s2 := (rmDirsLoop u (rightOnly l r) s1 rp).1 with e2
  set s3 := (syncFilesLoop u l (diffFileNames l r ++ funnyNames l r) s2 lp rp).1 with e3
  set s4 := (addFilesLoop u l (leftOnly l r) s3 lp rp).1 with e4
  set s5 := (rmFilesLoop u (rightOnly l r) s4 rp).1 with e5
  have h1 : look s1 n = some (FSNode.dir rc) := by
    rw [e1, addDirs_look_not_mem (not_mem_leftOnly_right hr), hr]
  have h2 : look s2 n = some (FSNode.dir rc) := by
    rw [e2, rmDirs_look_not_mem (not_mem_rightOnly_left hl), h1]
  have h3 : look s3 n = some (FSNode.dir rc) := by
    rw [e3, sync_look_not_mem (not_mem_fd_dirs hl hr), h2]
  have h4 : look s4 n = some (FSNode.dir rc) := by
    rw [e4, addFiles_look_nonfile (by simp [hl, isFileO]), h3]
  have h5 : look s5 n = some (FSNode.dir rc) := by
    rw [e5, rmFiles_look_not_mem (not_mem_rightOnly_left hl), h4]
  rw [mergeSubs_look_mem_dirs (nodup_commonDirNames l r)
    (mem_commonDirNames.mpr ⟨lc, rc, hl, hr⟩) s5 lp rp lc rc hl h5]

theorem mergeKey_df {u : U} {l r : List Entry} {lp rp : FPath} {n : String}
    {lc : List Entry} {f : Content} (hig : u.curIgn [lp, rp] = false)
    (hdry : u.dry = false)
    (hl : look l n = some (FSNode.dir lc)) (hr : look r n = some (FSNode.file f)) :
    look (mergeDirs u l r lp rp).1 n = some (FSNode.file f) := by
  rw [mergeDirs_fst hig]
  set s1 := (addDirsLoop u l (leftOnly l r) r lp rp).1 with e1
  set s2 := (rmDirsLoop u (rightOnly l r) s1 rp).1 with e2
  set s3 := (syncFilesLoop u l (diffFileNames l r ++ funnyNames l r) s2 lp rp).1 with e3
  set s4 := (addFilesLoop u l (leftOnly l r) s3 lp rp).1 with e4
  set s5 := (rmFilesLoop u (rightOnly l r) s4 rp).1 with e5
  have h1 : look s1 n = some (FSNode.file f) := by
    rw [e1, addDirs_look_not_mem (not_mem_leftOnly_right hr), hr]
  have h2 : look s2 n = some (FSNode.file f) := by
    rw [e2, rmDirs_look_not_mem (not_mem_rightOnly_left hl), h1]
  have h3 : look s3 n = some (FSNode.file f) := by
    rw [e3, sync_look_mem (nodup_diffFunny l r) (mem_fd_funny_df hl hr) s2 lp rp, h2, hl]
    by_cases hig2 : u.curIgn [lp ++ [n], rp ++ [n]] = true
    · simp [hig2]
    · simp only [Bool.not_eq_true] at hig2
      have hcopy : copyHappens u (some (FSNode.dir lc)) (some (FSNode.file f))
          (lp ++ [n]) (rp ++ [n]) false = false := by
        simp [copyHappens, isFileO]
      rw [handleFile_fst_of_not_copy hcopy]
      simp [hig2, hdry]
  have h4 : look s4 n = some (FSNode.file f) := by
    rw [e4, addFiles_look_nonfile (by simp [hl, isFileO]), h3]
  have h5 : look s5 n = some (FSNode.file f) := by
    rw [e5, rmFiles_look_not_mem (not_mem_rightOnly_left hl), h4]
  rw [mergeSubs_look_other s5 lp rp (by rw [h5]; simp [isDirO]), h5]

theorem mergeKey_fd {u : U} {l r : List Entry} {lp rp : FPath} {n : String}
    {a : Content} {d : List Entry} (hig : u.curIgn [lp, rp] = false)
    (hdry : u.dry = false)
    (hl : look l n = some (FSNode.file a)) (hr : look r n = some (FSNode.dir d)) :
    look (mergeDirs u l r lp rp).1 n = some (FSNode.dir d) := by
  rw [mergeDirs_fst hig]
  set s1 := (addDirsLoop u l (leftOnly l r) r lp rp).1 with e1
  set s2 := (rmDirsLoop u (rightOnly l r) s1 rp).1 with e2
  set s3 := (syncFilesLoop u l (diffFileNames l r ++ funnyNames l r) s2 lp rp).1 with e3
  set s4 := (addFilesLoop u l (leftOnly l r) s3 lp rp).1 with e4
  set s5 := (rmFilesLoop u (rightOnly l r) s4 rp).1 with e5
  have h1 : look s1 n = some (FSNode.dir d) := by
    rw [e1, addDirs_look_not_mem (not_mem_leftOnly_right hr), hr]
  have h2 : look s2 n = some (FSNode.dir d) := by
    rw [e2, rmDirs_look_not_mem (not_mem_rightOnly_left hl), h1]
  have h3 : look s3 n = some (FSNode.dir d) := by
    rw [e3, sync_look_mem (nodup_diffFunny l r) (mem_fd_funny_fd hl hr) s2 lp rp, h2, hl]
    by_cases hig2 : u.curIgn [lp ++ [n], rp ++ [n]] = true
    · simp [hig2]
    · simp only [Bool.not_eq_true] at hig2
      have hcopy : copyHappens u (some (FSNode.file a)) (some (FSNode.dir d))
          (lp ++ [n]) (rp ++ [n]) false = false := by
        simp [copyHappens, isDirO]
      rw [handleFile_fst_of_not_copy hcopy]
      simp [hig2, hdry]
  have h4 : look s4 n = some (FSNode.dir d) := by
    rw [e4, addFiles_look_not_mem (not_mem_leftOnly_right hr), h3]
  have h5 : look s5 n = some (FSNode.dir d) := by
    rw [e5, rmFiles_look_not_mem (not_mem_rightOnly_left hl), h4]
  rw [mergeSubs_look_other s5 lp rp (by rw [hl]; simp [isDirO]), h5]

theorem mergeKey_ff {u : U} {l r : List Entry} {lp rp : FPath} {n : String}
    {a b : Content} (hig : u.curIgn [lp, rp] = false) (hdry : u.dry = false)
    (hl : look l n = some (FSNode.file a)) (hr : look r n = some (FSNode.file b)) :
    look (mergeDirs u l r lp rp).1 n =
      if a == b then some (FSNode.file b)
      else (handleFileN u (some (FSNode.file a)) (some (FSNode.file b))
        (lp ++ [n]) (rp ++ [n]) false).1 := by
  rw [mergeDirs_fst hig]
  set s1 := (addDirsLoop u l (leftOnly l r) r lp rp).1 with e1
  set s2 := (rmDirsLoop u (rightOnly l r) s1 rp).1 with e2
  set s3 := (syncFilesLoop u l (diffFileNames l r ++ funnyNames l r) s2 lp rp).1 with e3
  set s4 := (addFilesLoop u l (leftOnly l r) s3 lp rp).1 with e4
  set s5 := (rmFilesLoop u (rightOnly l r) s4 rp).1 with e5
  have h1 : look s1 n = some (FSNode.file b) := by
    rw [e1, addDirs_look_not_mem (not_mem_leftOnly_right hr), hr]
  have h2 : look s2 n = some (FSNode.file b) := by
    rw [e2, rmDirs_look_not_mem (not_mem_rightOnly_left hl), h1]
  by_cases hab : a = b
  · subst hab
    have h3 : look s3 n = some (FSNode.file a) := by
      rw [e3, sync_look_not_mem (not_mem_fd_eq_files hl hr), h2]
    have h4 : look s4 n = some (FSNode.file a) := by
      rw [e4, addFiles_look_not_mem (not_mem_leftOnly_right hr), h3]
    have h5 : look s5 n = some (FSNode.file a) := by
      rw [e5, rmFiles_look_not_mem (not_mem_rightOnly_left hl), h4]
    rw [mergeSubs_look_other s5 lp rp (by rw [hl]; simp [isDirO]), h5]
    simp
  · have h3 : look s3 n = (handleFileN u (some (FSNode.file a)) (some (FSNode.file b))
        (lp ++ [n]) (rp ++ [n]) false).1 := by
      rw [e3, sync_look_mem (nodup_diffFunny l r) (mem_fd_diff hl hr hab) s2 lp rp, h2, hl]
      by_cases hig2 : u.curIgn [lp ++ [n], rp ++ [n]] = true
      · simp only [hig2, Bool.true_or, if_pos]
        rw [handleFileN]
        rw [if_pos hig2]
      · simp [hig2, hdry]
    have hshape : (handleFileN u (some (FSNode.file a)) (some (FSNode.file b))
        (lp ++ [n]) (rp ++ [n]) false).1 = some (FSNode.file b) ∨
        (handleFileN u (some (FSNode.file a)) (some (FSNode.file b))
        (lp ++ [n]) (rp ++ [n]) false).1 = some (FSNode.file a) := by
      rcases handleFile_cases u (some (FSNode.file a)) (some (FSNode.file b))
          (lp ++ [n]) (rp ++ [n]) false with ⟨_, a2, ha2, he2⟩ | ⟨_, hfst, _, _⟩
      · injection ha2 with ha2
        injection ha2 with ha2
        right
        rw [he2, ha2]
      · left
        exact hfst
    have h4 : look s4 n = look s3 n := by
      rw [e4, addFiles_look_not_mem (not_mem_leftOnly_right hr)]
    have h5 : look s5 n = look s3 n := by
      rw [e5, rmFiles_look_not_mem (not_mem_rightOnly_left hl), h4]
    have hnotdir : isDirO (look s5 n) = false := by
      rw [h5, h3]
      rcases hshape with hs | hs <;> rw [hs] <;> simp [isDirO]
    rw [mergeSubs_look_other s5 lp rp (by rw [hnotdir]; simp), h5, h3]
    simp [hab]

/-! Merging a directory with an identical copy of itself performs no
mutating action (the case produced by a `copytree` of the previous pass). -/

theorem leftOnly_self (c : List Entry) : leftOnly c c = [] := by
  rw [leftOnly, List.filter_eq_nil_iff]
  intro n hn
  rw [mem_namesOf] at hn
  rcases hx : look c n with _ | v
  · rw [hx] at hn
    simp at hn
  · simp [hx]

theorem rightOnly_self (c : List Entry) : rightOnly c c = [] := by
  rw [rightOnly, List.filter_eq_nil_iff]
  intro n hn
  rw [mem_namesOf] at hn
  rcases hx : look c n with _ | v
  · rw [hx] at hn
    simp at hn
  · simp [hx]

theorem diffFileNames_self (c : List Entry) : diffFileNames c c = [] := by
  rw [diffFileNames, List.filter_eq_nil_iff]
  intro n _
  rcases hx : look c n with _ | v
  · simp [hx]
  · rcases v with a | sub <;> simp [hx]

theorem funnyNames_self (c : List Entry) : funnyNames c c = [] := by
  rw [funnyNames, List.filter_eq_nil_iff]
  intro n _
  simp

theorem selfMerge_aux (u : U) :
    ∀ k c, sizeOf c ≤ k → ∀ lp rp, ((mergeDirs u c c lp rp).2).filter isMut = [] := by
  intro k
  induction k with
  | zero =>
    intro c hc lp rp
    exfalso
    cases c <;> simp at hc
  | succ k ih =>
    intro c hc lp rp
    by_cases hig : u.curIgn [lp, rp] = true
    · simp [mergeDirs_of_ign hig]
    · simp only [Bool.not_eq_true] at hig
      rw [mergeDirs_snd hig, leftOnly_self, rightOnly_self, diffFileNames_self,
        funnyNames_self]
      simp only [addDirsLoop, rmDirsLoop, syncFilesLoop, addFilesLoop, rmFilesLoop,
        List.nil_append, List.append_nil, List.filter_append, List.filter_nil]
      refine mergeSubs_no_mut (nodup_commonDirNames c c) c lp rp ?_
      intro n hn lc rc hlc hrc
      rw [hlc] at hrc
      injection hrc with hrc
      injection hrc with hrc
      subst hrc
      have hsz := sizeOf_look_dir hlc
      exact ih lc (by omega) (lp ++ [n]) (rp ++ [n])

/-- Merging two identical directory listings performs no mutating action. -/
theorem selfMerge_no_mut (u : U) (c : List Entry) (lp rp : FPath) :
    ((mergeDirs u c c lp rp).2).filter isMut = [] :=
  selfMerge_aux u (sizeOf c) c le_rfl lp rp

/-! Idempotence of `_merge_dirs`: after one completed pass, a second pass
over the same pair performs no mutating action. -/

theorem mergeIdem_aux (u : U) (hdry : u.dry = false) :
    ∀ k l, sizeOf l ≤ k → ∀ r lp rp,
      ((mergeDirs u l (mergeDirs u l r lp rp).1 lp rp).2).filter isMut = [] := by
  intro k
  induction k with
  | zero =>
    intro l hc
    exfalso
    cases l <;> simp at hc
  | succ k ih =>
    intro l hlk r lp rp
    by_cases hig : u.curIgn [lp, rp] = true
    · rw [mergeDirs_of_ign hig]
      simp
    · simp only [Bool.not_eq_true] at hig
      set r1 := (mergeDirs u l r lp rp).1 with er1
      rw [mergeDirs_snd hig]
      set t1 := (addDirsLoop u l (leftOnly l r1) r1 lp rp).1 with et1
      set t2 := (rmDirsLoop u (rightOnly l r1) t1 rp).1 with et2
      set t3 := (syncFilesLoop u l (diffFileNames l r1 ++ funnyNames l r1) t2 lp rp).1
        with et3
      set t4 := (addFilesLoop u l (leftOnly l r1) t3 lp rp).1 with et4
      set t5 := (rmFilesLoop u (rightOnly l r1) t4 rp).1 with et5
      have hstable12 : ∀ n (v w : FSNode), look l n = some v → look r1 n = some w →
          look t2 n = some w := by
        intro n v w hv hw
        rw [et2, rmDirs_look_not_mem (not_mem_rightOnly_left hv), et1,
          addDirs_look_not_mem (not_mem_leftOnly_right hw), hw]
      have condA : ∀ n ∈ leftOnly l r1, ∀ sub, look l n = some (FSNode.dir sub) →
          u.curIgn [lp ++ [n], rp ++ [n]] = true ∨ u.dry = true := by
        intro n hn sub hl2
        rcases mem_leftOnly.mp hn with ⟨_, hr1n⟩
        left
        by_contra hig2
        simp only [Bool.not_eq_true] at hig2
        rcases hrn : look r n with _ | w
        · have hkey := mergeKey_dn (u := u) hig hdry hl2 hrn
          rw [← er1, hr1n, if_neg (by simp [hig2])] at hkey
          simp at hkey
        · rcases w with f | rc
          · have hkey := mergeKey_df (u := u) hig hdry hl2 hrn
            rw [← er1, hr1n] at hkey
            simp at hkey
          · have hkey := mergeKey_dd (u := u) hig hl2 hrn
            rw [← er1, hr1n] at hkey
            simp at hkey
      have condB : ∀ n ∈ rightOnly l r1, ∀ d, look t1 n = some (FSNode.dir d) →
          u.curIgn [rp ++ [n]] = true ∨ u.dry = true ∨
            (u.safe = true ∧ u.ask (rmMsg (rp ++ [n])) = false) := by
        intro n hn d ht1n
        rcases mem_rightOnly.mp hn with ⟨hr1s, hln⟩
        rw [et1, addDirs_look_not_mem (not_mem_leftOnly_left hln)] at ht1n
        rcases hrn : look r n with _ | w
        · have hkey := @mergeKey_nn u l r lp rp n hln hrn
          rw [← er1, ht1n] at hkey
          simp at hkey
        · rcases w with f | d0
          · have hkey := mergeKey_nf (u := u) hig hdry hln hrn
            rw [← er1, ht1n] at hkey
            by_cases hi : u.curIgn [rp ++ [n]] = true
            · rw [if_pos hi] at hkey
              simp at hkey
            · rw [if_neg hi] at hkey
              simp at hkey
          · have hkey := mergeKey_nd (u := u) hig hdry hln hrn
            rw [← er1, ht1n] at hkey
            by_cases hi : u.curIgn [rp ++ [n]] = true
            · exact Or.inl hi
            · simp only [Bool.not_eq_true] at hi
              by_cases hs : u.safe = true
              · by_cases ha : u.ask (rmMsg (rp ++ [n])) = true
                · rw [if_neg (by simp [hi, ha])] at hkey
                  simp at hkey
                · simp only [Bool.not_eq_true] at ha
                  exact Or.inr (Or.inr ⟨hs, ha⟩)
              · simp only [Bool.not_eq_true] at hs
                rw [if_neg (by simp [hi, hs])] at hkey
                simp at hkey
      have condC : ∀ n ∈ diffFileNames l r1 ++ funnyNames l r1,
          u.curIgn [lp ++ [n], rp ++ [n]] = true ∨ u.dry = true ∨
            copyHappens u (look l n) (look t2 n) (lp ++ [n]) (rp ++ [n]) false = false := by
        intro n hn
        rcases List.mem_append.mp hn with hdif | hfun
        · rcases mem_diffFileNames.mp hdif with ⟨a, b, hla, hr1b, hab⟩
          rcases hrn : look r n with _ | w
          · exfalso
            have hkey := mergeKey_fn (u := u) hig hdry hla hrn
            rw [← er1, hr1b] at hkey
            by_cases hi : u.curIgn [lp ++ [n], rp ++ [n]] = true
            · rw [if_pos hi] at hkey
              simp at hkey
            · rw [if_neg hi] at hkey
              simp at hkey
              exact hab hkey.symm
          · rcases w with b0 | d0
            · have hkey := mergeKey_ff (u := u) hig hdry hla hrn
              rw [← er1, hr1b] at hkey
              by_cases hab0 : a = b0
              · exfalso
                rw [if_pos (by simp [hab0])] at hkey
                simp at hkey
                exact hab (hab0.trans hkey.symm)
              · rw [if_neg (by simp [hab0])] at hkey
                rcases handleFile_cases u (some (FSNode.file a)) (some (FSNode.file b0))
                    (lp ++ [n]) (rp ++ [n]) false with ⟨_, a2, ha2, he2⟩ | ⟨hnc, hfst, _, _⟩
                · exfalso
                  simp at ha2
                  rw [he2] at hkey
                  simp at hkey
                  exact hab (ha2.trans hkey.symm)
                · right
                  right
                  rw [hfst] at hkey
                  simp at hkey
                  have ht2n := hstable12 n _ _ hla hr1b
                  rw [hla, ht2n, hkey]
                  exact hnc
            · exfalso
              have hkey := mergeKey_fd (u := u) hig hdry hla hrn
              rw [← er1, hr1b] at hkey
              simp at hkey
        · rcases mem_funnyNames.mp hfun with ⟨hls, hr1s, hmis⟩
          right
          right
          rcases hlv : look l n with _ | v
          · rw [hlv] at hls
            simp at hls
          · rcases v with a | lc
            · rw [hlv] at hmis
              have hdir : isDirO (look r1 n) = true := by
                rcases hb : isDirO (look r1 n)
                · rw [hb] at hmis
                  simp [isDirO] at hmis
                · rfl
              rcases hr1v : look r1 n with _ | w
              · rw [hr1v] at hdir
                simp [isDirO] at hdir
              · rcases w with f | d
                · rw [hr1v] at hdir
                  simp [isDirO] at hdir
                · have ht2n := hstable12 n _ _ hlv hr1v
                  rw [ht2n]
                  simp [copyHappens, isDirO]
            · simp [copyHappens, isFileO]
      have condD : ∀ n ∈ leftOnly l r1, ∀ c2, look l n = some (FSNode.file c2) →
          u.curIgn [lp ++ [n], rp ++ [n]] = true ∨ u.dry = true := by
        intro n hn c2 hl2
        rcases mem_leftOnly.mp hn with ⟨_, hr1n⟩
        left
        by_contra hig2
        simp only [Bool.not_eq_true] at hig2
        rcases hrn : look r n with _ | w
        · have hkey := mergeKey_fn (u := u) hig hdry hl2 hrn
          rw [← er1, hr1n, if_neg (by simp [hig2])] at hkey
          simp at hkey
        · rcases w with f | d
          · have hkey := mergeKey_ff (u := u) hig hdry hl2 hrn
            rw [← er1, hr1n] at hkey
            by_cases he : c2 = f
            · rw [if_pos (by simp [he])] at hkey
              simp at hkey
            · rw [if_neg (by simp [he])] at hkey
              rcases handleFile_cases u (some (FSNode.file c2)) (some (FSNode.file f))
                  (lp ++ [n]) (rp ++ [n]) false with ⟨_, a2, ha2, he2⟩ | ⟨_, hfst, _, _⟩
              · rw [he2] at hkey
                simp at hkey
              · rw [hfst] at hkey
                simp at hkey
          · have hkey := mergeKey_fd (u := u) hig hdry hl2 hrn
            rw [← er1, hr1n] at hkey
            simp at hkey
      have condE : ∀ n ∈ rightOnly l r1, ∀ f, look t4 n = some (FSNode.file f) →
          u.curIgn [rp ++ [n]] = true ∨ u.dry = true := by
        intro n hn f ht4n
        rcases mem_rightOnly.mp hn with ⟨hr1s, hln⟩
        rcases hr1v : look r1 n with _ | w
        · rw [hr1v] at hr1s
          simp at hr1s
        · rcases w with f0 | d0
          · rcases hrn : look r n with _ | w0
            · have hkey := @mergeKey_nn u l r lp rp n hln hrn
              rw [← er1, hr1v] at hkey
              simp at hkey
            · rcases w0 with f1 | d1
              · have hkey := mergeKey_nf (u := u) hig hdry hln hrn
                rw [← er1, hr1v] at hkey
                by_cases hi : u.curIgn [rp ++ [n]] = true
                · exact Or.inl hi
                · rw [if_neg hi] at hkey
                  simp at hkey
              · have hkey := mergeKey_nd (u := u) hig hdry hln hrn
                rw [← er1, hr1v] at hkey
                by_cases hi : (u.curIgn [rp ++ [n]] ||
                    (u.safe && !(u.ask (rmMsg (rp ++ [n]))))) = true
                · rw [if_pos hi] at hkey
                  simp at hkey
                · rw [if_neg hi] at hkey
                  simp at hkey
          · exfalso
            have ht1 : look t1 n = some (FSNode.dir d0) := by
              rw [et1, addDirs_look_not_mem (not_mem_leftOnly_left hln), hr1v]
            have ht2 : look t2 n = some (FSNode.dir d0) ∨ look t2 n = none := by
              rw [et2, rmDirs_look_mem_dir (nodup_rightOnly l r1) hn t1 rp d0 ht1]
              split_ifs
              · exact Or.inl rfl
              · exact Or.inr rfl
            have ht4 : look t4 n = look t2 n := by
              rw [et4, addFiles_look_not_mem (not_mem_leftOnly_left hln), et3,
                sync_look_not_mem (not_mem_fd_left_none hln)]
            rw [ht4] at ht4n
            rcases ht2 with h2 | h2 <;> rw [h2] at ht4n <;> cases ht4n
      have condF : ∀ n ∈ commonDirNames l r1, ∀ lc rc,
          look l n = some (FSNode.dir lc) → look t5 n = some (FSNode.dir rc) →
          ((mergeDirs u lc rc (lp ++ [n]) (rp ++ [n])).2).filter isMut = [] := by
        intro n hn lc rc hl2 ht5n
        rcases mem_commonDirNames.mp hn with ⟨lc0, rc0, hl0, hr1d⟩
        rw [hl2] at hl0
        simp at hl0
        subst hl0
        have ht5 : look t5 n = look r1 n := by
          rw [et5, rmFiles_look_not_mem (not_mem_rightOnly_left hl2), et4,
            addFiles_look_not_mem (not_mem_leftOnly_right hr1d), et3,
            sync_look_not_mem (not_mem_fd_dirs hl2 hr1d), et2,
            rmDirs_look_not_mem (not_mem_rightOnly_left hl2), et1,
            addDirs_look_not_mem (not_mem_leftOnly_right hr1d)]
        rw [ht5, hr1d] at ht5n
        simp at ht5n
        subst ht5n
        have hsz : sizeOf lc < sizeOf l := sizeOf_look_dir hl2
        rcases hrn : look r n with _ | w
        · have hkey := mergeKey_dn (u := u) hig hdry hl2 hrn
          rw [← er1, hr1d] at hkey
          by_cases hi : u.curIgn [lp ++ [n], rp ++ [n]] = true
          · rw [if_pos hi] at hkey
            simp at hkey
          · rw [if_neg hi] at hkey
            simp at hkey
            rw [hkey]
            exact selfMerge_no_mut u lc (lp ++ [n]) (rp ++ [n])
        · rcases w with f | rc1
          · have hkey := mergeKey_df (u := u) hig hdry hl2 hrn
            rw [← er1, hr1d] at hkey
            simp at hkey
          · have hkey := mergeKey_dd (u := u) hig hl2 hrn
            rw [← er1, hr1d] at hkey
            simp at hkey
            rw [hkey]
            exact ih lc (by omega) rc1 (lp ++ [n]) (rp ++ [n])
      rw [List.filter_append, List.filter_append, List.filter_append, List.filter_append,
        List.filter_append]
      rw [addDirs_no_mut condA]
      rw [rmDirs_no_mut _ _ condB]
      rw [sync_no_mut (nodup_diffFunny l r1) _ _ _ condC]
      rw [addFiles_no_mut condD]
      rw [rmFiles_no_mut _ _ condE]
      rw [mergeSubs_no_mut (nodup_commonDirNames l r1) _ _ _ condF]
      simp

/--`_merge_dirs` is idempotent: a second run on the result of a first run
emits no mutating action, whatever the flags, prompt answers, ignore
patterns, templates and transient copy errors (all deterministic between
the two runs). -/
theorem mergeIdem (u : U) (l r : List Entry) (lp rp : FPath) :
    ((mergeDirs u l (mergeDirs u l r lp rp).1 lp rp).2).filter isMut = [] := by
  by_cases hdry : u.dry = true
  · exact mergeDirs_dry hdry l (mergeDirs u l r lp rp).1 lp rp
  · simp only [Bool.not_eq_true] at hdry
    exact mergeIdem_aux u hdry (sizeOf l) l le_rfl r lp rp

/-! Lemmas at the level of `_update` / `update_path`. -/

theorem handleFile_dry_no_mut {u : U} (hdry : u.dry = true) (ln rn : Option FSNode)
    (left right : FPath) (compare : Bool) :
    ((handleFileN u ln rn left right compare).2.1).filter isMut = [] :=
  handleFile_mut_of_not_copy (by simp [copyHappens, hdry])

theorem dispatch_dry_no_mut {u : U} (hdry : u.dry = true) (ln rn : Option FSNode)
    (left right : FPath) :
    ((dispatch u ln rn left right).2).filter isMut = [] := by
  rcases ln with _ | v
  · exact handleFile_dry_no_mut hdry _ _ _ _ _
  · rcases v with c | lc
    · exact handleFile_dry_no_mut hdry _ _ _ _ _
    · rcases rn with _ | w
      · simp only [dispatch, handleDir]
        split_ifs <;> simp
      · rcases w with c2 | rc
        · simp only [dispatch, handleDir]
          split_ifs <;> simp
        · by_cases hig : u.curIgn [left, right] = true
          · simp [dispatch, handleDir, hig]
          · simp only [Bool.not_eq_true] at hig
            simp only [dispatch, handleDir, hig, Bool.false_eq_true, if_false]
            exact mergeDirs_dry hdry lc rc left right

theorem dispatch_targets {u : U} (ln rn : Option FSNode) (left right : FPath)
    (hig : u.curIgn [left, right] = false) :
    ∀ e ∈ (dispatch u ln rn left right).2, mutOK u e := by
  intro e he
  rcases ln with _ | v
  · exact handleFile_targets hig e he
  · rcases v with c | lc
    · exact handleFile_targets hig e he
    · rcases rn with _ | w
      · simp only [dispatch, handleDir, hig, Bool.false_eq_true, if_false] at he
        simp at he
      · rcases w with c2 | rc
        · simp only [dispatch, handleDir, hig, Bool.false_eq_true, if_false] at he
          simp at he
        · simp only [dispatch, handleDir, hig, Bool.false_eq_true, if_false] at he
          exact mergeDirs_targets u lc rc left right e he

/-! Lemmas for the character-level `_normalize` model. -/

theorem isPrefixOf_append_self (a b : List Char) : a.isPrefixOf (a ++ b) = true := by
  induction a with
  | nil => simp [List.isPrefixOf]
  | cons c t ih => simp [List.isPrefixOf, ih]

theorem expanduserC_no_tilde {home p : List Char} (hp : p.head? ≠ some '~') :
    expanduserC home p = p := by
  have h1 : ¬(p = ['~']) := by
    intro he
    rw [he] at hp
    simp at hp
  have h2 : ¬(['~', '/'].isPrefixOf p = true) := by
    intro hpre
    rcases p with _ | ⟨c, t⟩
    · simp [List.isPrefixOf] at hpre
    · simp [List.isPrefixOf] at hpre
      exact hp (by simp [← hpre.1])
  rw [expanduserC, if_neg h1, if_neg h2]

theorem normalize_roundtrip (ev ap : List Char → List Char) (home rest : List Char)
    (hev : ev (home ++ '/' :: rest) = home ++ '/' :: rest)
    (hap : ap (home ++ '/' :: rest) = home ++ '/' :: rest)
    (hhome : home.head? = some '/')
    (hrest : rest.head? ≠ some '/') :
    expanduserC home (normalizeC ev ap home (home ++ '/' :: rest)) = home ++ '/' :: rest := by
  have hph : (home ++ '/' :: rest).head? = some '/' := by
    rcases home with _ | ⟨h0, ht⟩
    · simp at hhome
    · simp at hhome
      simp [hhome]
  have h1 : expanduserC home (home ++ '/' :: rest) = home ++ '/' :: rest :=
    expanduserC_no_tilde (by rw [hph]; simp)
  have hsplit : home ++ '/' :: rest = (home ++ ['/']) ++ rest := by simp
  have h2 : expanduserC home ['~'] = home := by simp [expanduserC]
  have h3 : (home ++ ['/']).isPrefixOf (home ++ '/' :: rest) = true := by
    rw [hsplit]
    exact isPrefixOf_append_self _ _
  have h4 : (home ++ '/' :: rest).drop (home ++ ['/']).length = rest := by
    rw [hsplit, List.drop_left]
  simp only [normalizeC]
  rw [h1, hev, hap, h2, if_pos h3, h4]
  have hj2 : (['~'] : List Char) ≠ [] := by simp
  have hj3 : ¬((['~'] : List Char).getLast? = some '/') := by decide
  rw [pjoinC, if_neg hrest, if_neg hj2, if_neg hj3]
  have hcons : (['~'] : List Char) ++ '/' :: rest = '~' :: '/' :: rest := rfl
  have h5 : ¬('~' :: '/' :: rest = ['~']) := by simp
  have h6 : ['~', '/'].isPrefixOf ('~' :: '/' :: rest) = true := by
    simp [List.isPrefixOf]
  rw [hcons, expanduserC, if_neg h5, if_pos h6]
  simp

/-! Concrete instances used by counterexamples and witnesses. -/

/-- A concrete `Updater` with neutral oracle behaviour. -/
def baseU : U where
  dry := false
  safe := false
  showpatch := false
  ignore := []
  dotfiles := []
  dotpathRoot := ["repo"]
  isTemplate := fun _ => false
  render := fun c => c + 100
  previewTmp := ["tmp", "preview"]
  ask := fun _ => true
  copyError := fun _ _ => false
  matchIgn := fun _ _ => false
  curIgn := fun _ => false
  transTmp := ["tmp", "trans"]
  transOut := fun _ => some 5
  transFailedLeft := false
  lexists := fun _ => true
  normalizeP := fun p => p
  expandP := fun p => p

/-- Updater for the template/showpatch scenarios: content `9` is a template. -/
def u1w : U := { baseU with showpatch := true, isTemplate := fun c => c == 9 }

/-- A dotfile record with a write transformation. -/
def df3 : Dotfile :=
  { key := "k", dst := ["home", "f"], src := ["f"], transW := some "t", upignore := [] }

/-- Dry-run updater. -/
def u4 : U := { baseU with dry := true }

/-- Updater whose ignore matcher matches exactly the inner pair
`(l/d/f, r/d/f)`. -/
def u5 : U :=
  { baseU with curIgn := fun ps => ps == [["l", "d", "f"], ["r", "d", "f"]] }

/-- Profile with two dotfiles sharing the key `k` plus an unrelated third. -/
def u6 : U :=
  { baseU with dotfiles :=
    [⟨"k", ["d1"], ["s1"], none, []⟩,
     ⟨"k", ["d2"], ["s2"], none, []⟩,
     ⟨"k2", ["d3"], ["s3"], none, []⟩] }

/-- Updater whose copy primitive always raises a transient I/O error. -/
def u8 : U := { baseU with copyError := fun _ _ => true }

/-- Updater for which no path exists. -/
def u9 : U := { baseU with lexists := fun _ => false }

/-- Safe-mode updater that declines every prompt. -/
def u10 : U := { baseU with safe := true, ask := fun _ => false }

/-- Value of `os.path.abspath` on the non-canonical absolute path `/h/./v`:
`abspath` runs `normpath`, which removes the `.` component (the input being
absolute, the working directory plays no role).  Every other input is left
untouched by this single-point oracle. -/
def apEx : List Char → List Char :=
  fun p =>
    if p = ['/', 'h', '/', '.', '/', 'v'] then ['/', 'h', '/', 'v'] else p

/-! The claims. -/

/-- C1: for every call to the file sync operation (`_handle_file`) where the
managed file `right` is detected as a template, the managed file is never
written: the operation returns failure, after logging a warning and, when
showpatch is enabled, emitting the patch recipe; it performs no copy onto
`right`, regardless of the dry-run and safe-mode flags. -/
theorem claim_c1_template_never_written (u : U) (ln rn : Option FSNode)
    (left right : FPath) (compare : Bool) (c : Content)
    (hig : u.curIgn [left, right] = false)
    (hrn : rn = some (FSNode.file c))
    (htm : u.isTemplate c = true) :
    handleFileN u ln rn left right compare =
      (rn, Effect.warnE (tmplWarn right) ::
        (if u.showpatch then patchFx u rn left right else []), false) ∧
    ((handleFileN u ln rn left right compare).2.1).filter isMut = [] := by
  subst hrn
  have heq : handleFileN u ln (some (FSNode.file c)) left right compare =
      (some (FSNode.file c), Effect.warnE (tmplWarn right) ::
        (if u.showpatch then patchFx u (some (FSNode.file c)) left right else []), false) := by
    simp [handleFileN, isTemplateO, hig, htm]
  refine ⟨heq, ?_⟩
  rw [heq]
  dsimp only
  split_ifs <;> simp [patchFx, isMut]

theorem claim_c1_witness :
    handleFileN u1w (some (FSNode.file 1)) (some (FSNode.file 9)) ["a"] ["b"] true =
      (some (FSNode.file 9), Effect.warnE (tmplWarn ["b"]) ::
        (if u1w.showpatch then patchFx u1w (some (FSNode.file 9)) ["a"] ["b"] else []),
        false) ∧
    ((handleFileN u1w (some (FSNode.file 1)) (some (FSNode.file 9))
      ["a"] ["b"] true).2.1).filter isMut = [] :=
  claim_c1_template_never_written u1w (some (FSNode.file 1)) (some (FSNode.file 9))
    ["a"] ["b"] true 9 rfl rfl rfl

/-- C2: tree merge is idempotent: running `_merge_dirs` to completion and
running it a second time on the same pair, with no external change in
between (all oracles deterministic), performs zero mutating filesystem
actions (no copy, no recursive copy, no removal) on the second run. -/
theorem claim_c2_merge_idempotent (u : U) (l r : List Entry) (lp rp : FPath) :
    ((mergeDirs u l (mergeDirs u l r lp rp).1 lp rp).2).filter isMut = [] :=
  mergeIdem u l r lp rp

/-- C3 counterexample: with showpatch enabled and a template managed file,
one update invocation writes the template-patch preview temporary file and
never removes it (only the write-transformation temp file is removed), so
"every temporary file is removed on every exit path" is false as stated. -/
theorem claim_c3_counterexample :
    Effect.writeTmpF u1w.previewTmp (u1w.render 9) ∈
      (updateOne u1w ["home", "f"] df3 (some (FSNode.file 1)) (some (FSNode.file 9))).2 ∧
    Effect.removeF u1w.previewTmp ∉
      (updateOne u1w ["home", "f"] df3 (some (FSNode.file 1)) (some (FSNode.file 9))).2 := by
  decide

/-- C3 amended: the write-transformation temporary file is removed on every
modeled exit path of one update invocation (successful or failed sync, and
transformation failure whenever the failed transformation left a file); the
template-patch preview temporary file is left in place for the suggested
manual `diff`/`patch` command. -/
theorem claim_c3_amended (u : U) (p : FPath) (df : Dotfile) (ln rn : Option FSNode)
    (tk : String) (htw : df.transW = some tk)
    (hig : u.matchIgn (mergePats u.ignore df.upignore)
      [u.expandP p, u.dotpathRoot ++ df.src] = false) :
    ((u.transOut tk).isSome →
      Effect.removeF u.transTmp ∈ (updateOne u p df ln rn).2) ∧
    (u.transOut tk = none → u.transFailedLeft = true →
      Effect.removeF u.transTmp ∈ (updateOne u p df ln rn).2) := by
  constructor
  · intro hsome
    rcases hout : u.transOut tk with _ | c
    · rw [hout] at hsome
      simp at hsome
    · simp [updateOne, hig, htw, hout]
  · intro hnone hleft
    simp [updateOne, hig, htw, hnone, hleft]

theorem claim_c3_amended_witness :
    Effect.removeF u1w.transTmp ∈
      (updateOne u1w ["home", "f"] df3 (some (FSNode.file 1)) (some (FSNode.file 9))).2 :=
  (claim_c3_amended u1w ["home", "f"] df3 (some (FSNode.file 1)) (some (FSNode.file 9))
    "t" rfl (by decide)).1 (by decide)

/-- C4 counterexample: in dry-run mode, an update of a dotfile with a write
transformation still performs a filesystem mutation: the removal of the
transformation temporary file (`utils.remove` runs even when `dry` is set),
so "no file or directory removal happens in dry-run" is false as stated. -/
theorem claim_c4_counterexample :
    u4.dry = true ∧
    Effect.removeF u4.transTmp ∈
      (updateOne u4 ["home", "f"] df3 (some (FSNode.file 1)) (some (FSNode.file 2))).2 ∧
    isMut (Effect.removeF u4.transTmp) = true := by
  decide

/-- C4 amended: in dry-run mode the update operation performs no mutating
filesystem action on the deployed or managed trees; the only mutating
actions in its trace are removals of the invocation's own
write-transformation temporary file. -/
theorem claim_c4_amended (u : U) (p : FPath) (df : Dotfile) (ln rn : Option FSNode)
    (hdry : u.dry = true) :
    ∀ e ∈ (updateOne u p df ln rn).2, isMut e = true → e = Effect.removeF u.transTmp := by
  intro e he hm
  by_cases hign : u.matchIgn (mergePats u.ignore df.upignore)
      [u.expandP p, u.dotpathRoot ++ df.src] = true
  · simp [updateOne, hign] at he
  · simp only [Bool.not_eq_true] at hign
    rcases htw : df.transW with _ | tk
    · simp only [updateOne, hign, htw, Bool.false_eq_true, if_false] at he
      exfalso
      have h2 := List.mem_filter.mpr ⟨he, hm⟩
      rw [dispatch_dry_no_mut
        (u := { u with curIgn := u.matchIgn (mergePats u.ignore df.upignore) }) hdry] at h2
      simp at h2
    · rcases hout : u.transOut tk with _ | c
      · simp only [updateOne, hign, htw, hout, Bool.false_eq_true, if_false] at he
        rcases List.mem_cons.mp he with he | he
        · rw [he] at hm
          simp [isMut] at hm
        · split_ifs at he with htfl
          · simp at he
            exact he
          · simp at he
      · simp only [updateOne, hign, htw, hout, Bool.false_eq_true, if_false] at he
        rcases List.mem_cons.mp he with he | he
        · rw [he] at hm
          simp [isMut] at hm
        · rcases List.mem_append.mp he with he | he
          · exfalso
            have h2 := List.mem_filter.mpr ⟨he, hm⟩
            rw [dispatch_dry_no_mut
              (u := { u with curIgn := u.matchIgn (mergePats u.ignore df.upignore) })
              hdry] at h2
            simp at h2
          · simp at he
            exact he

theorem claim_c4_amended_witness :
    Effect.removeF u4.transTmp ∈
      (updateOne u4 ["home", "f"] df3 (some (FSNode.file 1)) (some (FSNode.file 2))).2 ∧
    Effect.removeF u4.transTmp = Effect.removeF u4.transTmp :=
  ⟨by decide,
    claim_c4_amended u4 ["home", "f"] df3 (some (FSNode.file 1)) (some (FSNode.file 2))
      rfl (Effect.removeF u4.transTmp) (by decide) (by decide)⟩

/-- C5 counterexample: a path pair matched by the ignore set is still
written to at a deeper recursion level: a left-only directory is copied
wholesale with `shutil.copytree`, which creates `r/d/f` on the managed side
even though the pair `(l/d/f, r/d/f)` matches the ignore set, so "an
ignored pair is neither read from nor written to at any recursion depth" is
false as stated. -/
theorem claim_c5_counterexample :
    u5.curIgn [["l", "d", "f"], ["r", "d", "f"]] = true ∧
    (match look (mergeDirs u5 [("d", FSNode.dir [("f", FSNode.file 1)])] []
        ["l"] ["r"]).1 "d" with
     | some (FSNode.dir sub) => look sub "f"
     | _ => none) = some (FSNode.file 1) := by
  constructor
  · decide
  · have h := @mergeKey_dn u5 [("d", FSNode.dir [("f", FSNode.file 1)])] []
      ["l"] ["r"] "d" [("f", FSNode.file 1)] rfl rfl rfl rfl
    rw [h]
    rfl

/-- C5 amended: every mutating action of `_merge_dirs` (file copy,
recursive copy, removal) directly targets a path pair (or path) that the
merged ignore set does not match, at every recursion depth, and an update
whose top-level pair matches the ignore set returns success trivially with
no effect; entries beneath a non-ignored directory handled by a bulk
`copytree`/`remove` are however copied or removed together with it even
when they match the ignore set themselves. -/
theorem claim_c5_amended (u : U) :
    (∀ l r lp rp, ∀ e ∈ (mergeDirs u l r lp rp).2, mutOK u e) ∧
    (∀ p df ln rn, u.matchIgn (mergePats u.ignore df.upignore)
        [u.expandP p, u.dotpathRoot ++ df.src] = true →
      updateOne u p df ln rn = (true, [])) := by
  constructor
  · intro l r lp rp
    exact mergeDirs_targets u l r lp rp
  · intro p df ln rn hign
    simp [updateOne, hign]

theorem claim_c5_amended_witness :
    updateOne { baseU with matchIgn := fun _ _ => true } ["home", "f"] df3
      none none = (true, []) :=
  (claim_c5_amended { baseU with matchIgn := fun _ _ => true }).2 ["home", "f"] df3
    none none (by decide)

/-- C6: lookup by key at a profile where two records share the key `k`
reports the ambiguity without returning a record, but the error message
lists the source paths of every dotfile of the profile (`s1,s2,s3`), not
only those of the matching records (`s1,s2`): the code joins
`d.src for d in dotfiles` instead of `subs`. -/
theorem claim_c6_ambiguity_message_bug :
    (getDotfileByKey u6 "k").1 = none ∧
    (getDotfileByKey u6 "k").2 =
      [Effect.errE "multiple dotfiles found: s1,s2,s3"] ∧
    (getDotfileByPath u6 ["d3"]).1 = some ⟨"k2", ["d3"], ["s3"], none, []⟩ ∧
    (getDotfileByPath u6 ["nope"]).1 = none := by
  decide

/-- C7: counterexample — the round-trip fails on a non-canonical absolute
path under home.  With `home = /h` and input `/h/./v`, `os.path.abspath`
(updater.py line 120) rewrites the path to `/h/v` before the home prefix is
replaced, so `_normalize` returns `~/v`, and expanding the `~` marker back
yields `/h/v`, not the original `/h/./v`.  (Paths containing
environment-variable references fail the same way through
`os.path.expandvars` at line 119.) -/
theorem claim_c7_counterexample :
    expanduserC ['/', 'h']
        (normalizeC id apEx ['/', 'h'] (['/', 'h'] ++ '/' :: ['.', '/', 'v'])) ≠
      ['/', 'h'] ++ '/' :: ['.', '/', 'v'] := by
  decide

/-- C7 (amended): for every absolute path lying under the current user's
home directory that is variable-free and canonical (so that
`os.path.expandvars` and `os.path.abspath` act as the identity on it),
`_normalize` produces a `~`-prefixed path whose user expansion reproduces
the original absolute path. -/
theorem claim_c7_amended (ev ap : List Char → List Char)
    (home rest : List Char)
    (hev : ev (home ++ '/' :: rest) = home ++ '/' :: rest)
    (hap : ap (home ++ '/' :: rest) = home ++ '/' :: rest)
    (hhome : home.head? = some '/')
    (hrest : rest.head? ≠ some '/') :
    expanduserC home (normalizeC ev ap home (home ++ '/' :: rest)) =
      home ++ '/' :: rest :=
  normalize_roundtrip ev ap home rest hev hap hhome hrest

theorem claim_c7_amended_witness :
    expanduserC ['/', 'h'] (normalizeC id id ['/', 'h'] (['/', 'h'] ++ '/' :: ['v'])) =
      ['/', 'h'] ++ '/' :: ['v'] :=
  claim_c7_amended id id ['/', 'h'] ['v'] rfl rfl rfl (by decide)

/-- C8: for every file sync call that reaches the copy step, an I/O error
raised by the copy (source not a regular file, destination a directory, or
a transient error) is caught inside `_handle_file`, logged as a warning
instructing manual resolution, and reported as a boolean failure — the
managed node is unchanged and no exception escapes (the model function
returns normally). -/
theorem claim_c8_copy_error_caught (u : U) (ln rn : Option FSNode)
    (left right : FPath) (compare : Bool)
    (hig : u.curIgn [left, right] = false)
    (htm : isTemplateO u rn = false)
    (hcmp : (compare && cmpSh ln rn) = false)
    (hask : u.safe = true → u.ask (owMsg left right) = true)
    (hdry : u.dry = false)
    (hfail : isFileO ln = false ∨ isDirO rn = true ∨ u.copyError left right = true) :
    handleFileN u ln rn left right compare =
      (rn, (if u.safe then [Effect.askE (owMsg left right)] else []) ++
        [Effect.warnE (copyFailMsg left)], false) := by
  have hdec : (u.safe && !(u.ask (owMsg left right))) = false := by
    by_cases hs : u.safe = true
    · simp [hs, hask hs]
    · simp only [Bool.not_eq_true] at hs
      simp [hs]
  rcases ln with _ | v
  · simp [handleFileN, fileCopyStage, hig, htm, hcmp, hdec, hdry]
  · rcases v with a | lc
    · have hdc : (isDirO rn || u.copyError left right) = true := by
        rcases hfail with h | h | h
        · simp [isFileO] at h
        · simp [h]
        · simp [h]
      simp [handleFileN, fileCopyStage, hig, htm, hcmp, hdec, hdry, hdc]
    · simp [handleFileN, fileCopyStage, hig, htm, hcmp, hdec, hdry]

theorem claim_c8_witness :
    handleFileN u8 (some (FSNode.file 1)) (some (FSNode.file 2)) ["a"] ["b"] true =
      (some (FSNode.file 2), (if u8.safe then [Effect.askE (owMsg ["a"] ["b"])] else []) ++
        [Effect.warnE (copyFailMsg ["a"])], false) :=
  claim_c8_copy_error_caught u8 (some (FSNode.file 1)) (some (FSNode.file 2))
    ["a"] ["b"] true (by decide) (by decide) (by decide) (by decide) (by decide)
    (Or.inr (Or.inr (by decide)))

/-- C9: for every path argument that does not exist on the filesystem (not
even as a symlink, per `os.path.lexists`), `update_path` returns failure
immediately with only the error log line — no dotfile resolution,
transformation or filesystem mutation takes place. -/
theorem claim_c9_missing_path_fails (u : U) (p : FPath) (ln rn : Option FSNode)
    (h : u.lexists p = false) :
    updatePath u p ln rn =
      (false, [Effect.errE ("\"" ++ pstr p ++ "\" does not exist!")]) := by
  simp [updatePath, h]

theorem claim_c9_witness :
    updatePath u9 ["x"] none none =
      (false, [Effect.errE ("\"" ++ pstr ["x"] ++ "\" does not exist!")]) :=
  claim_c9_missing_path_fails u9 ["x"] none none (by decide)

/-- C10: in `_handle_file` the safe-mode confirmation precedes the dry-run
check: for every call on a differing, non-template file pair with safe mode
enabled, the overwrite prompt is issued first (even when dry-run is also
enabled), and a declined prompt makes the call return failure with no
mutation in both dry and non-dry modes. -/
theorem claim_c10_prompt_before_dry (u : U) (ln rn : Option FSNode)
    (left right : FPath) (a b : Content)
    (hig : u.curIgn [left, right] = false)
    (hln : ln = some (FSNode.file a)) (hrn : rn = some (FSNode.file b))
    (htm : u.isTemplate b = false) (hab : a ≠ b) (hsafe : u.safe = true) :
    ((handleFileN u ln rn left right true).2.1).head? =
      some (Effect.askE (owMsg left right)) ∧
    (u.ask (owMsg left right) = false →
      handleFileN u ln rn left right true =
        (rn, [Effect.askE (owMsg left right)], false)) := by
  subst hln
  subst hrn
  have hcmp : cmpSh (some (FSNode.file a)) (some (FSNode.file b)) = false := by
    simp [cmpSh, hab]
  constructor
  · simp only [handleFileN, fileCopyStage, isTemplateO, hig, htm, hcmp, hsafe,
      Bool.false_eq_true, if_false, Bool.true_and, Bool.and_false, Bool.and_true]
    split_ifs <;> simp
  · intro hask
    simp [handleFileN, fileCopyStage, isTemplateO, hig, htm, hcmp, hsafe, hask]

theorem claim_c10_witness :
    ((handleFileN u10 (some (FSNode.file 1)) (some (FSNode.file 2))
      ["a"] ["b"] true).2.1).head? = some (Effect.askE (owMsg ["a"] ["b"])) ∧
    (u10.ask (owMsg ["a"] ["b"]) = false →
      handleFileN u10 (some (FSNode.file 1)) (some (FSNode.file 2)) ["a"] ["b"] true =
        (some (FSNode.file 2), [Effect.askE (owMsg ["a"] ["b"])], false)) :=
  claim_c10_prompt_before_dry u10 (some (FSNode.file 1)) (some (FSNode.file 2))
    ["a"] ["b"] 1 2 (by decide) rfl rfl (by decide) (by decide) (by decide)

end Dotdrop
